import Mathlib

/-!
Verification of the include-guard rewriter (`src/header_guard/core.py` and the
alternative single-file implementation `header_guard.py`).

Text is modelled as `List Char`.  Python string primitives (`str.strip`,
`str.split`, `str.splitlines(keepends=True)`, `str.startswith`, substring
tests, regular-expression scanning) are embedded as executable Lean
functions over `List Char`.  The Unicode character classes used by Python
(`str.isspace`, `str.isalnum`, `str.isdigit`, `str.upper`) are embedded
exactly for code points up to U+00FF (ASCII plus the Latin-1 supplement,
which covers every input appearing in a theorem of this file); the
whitespace and line-break classes are embedded for the full Unicode range.
-/

/-- Character list of a string literal, used to write concrete texts. -/
def strl (s : String) : List Char := s.toList

/-- Python `str.isspace` / regex `\s` (the full Unicode whitespace set used
by CPython). -/
def pyIsSpace (c : Char) : Bool :=
  let n := c.toNat
  n = 0x20 || (0x09 ≤ n && n ≤ 0x0d) || (0x1c ≤ n && n ≤ 0x1f) ||
  n = 0x85 || n = 0xa0 || n = 0x1680 || (0x2000 ≤ n && n ≤ 0x200a) ||
  n = 0x2028 || n = 0x2029 || n = 0x202f || n = 0x205f || n = 0x3000

/-- The line terminators recognised by Python `str.splitlines`
(besides the combined `"\r\n"`). -/
def isLineBreak (c : Char) : Bool :=
  let n := c.toNat
  (0x0a ≤ n && n ≤ 0x0d) || n = 0x1c || n = 0x1d || n = 0x1e ||
  n = 0x85 || n = 0x2028 || n = 0x2029

theorem lineBreak_isSpace {c : Char} (h : isLineBreak c = true) : pyIsSpace c = true := by
  simp only [isLineBreak, pyIsSpace, Bool.or_eq_true, decide_eq_true_eq,
    Bool.and_eq_true] at *
  omega

/-- Drop elements satisfying `p` from the end of a list. -/
def dropWhileEnd (p : Char → Bool) (s : List Char) : List Char :=
  (s.reverse.dropWhile p).reverse

/-- Python `str.strip()` (no argument: strips Unicode whitespace at both ends). -/
def pyStrip (s : List Char) : List Char :=
  dropWhileEnd pyIsSpace (s.dropWhile pyIsSpace)

/-- Python `str.lstrip("\n")`. -/
def pyLstripNewlines (s : List Char) : List Char :=
  s.dropWhile (fun c => c = '\n')

/-- Accumulator worker for `pySplit`. -/
def wordsAux : List Char → List Char → List (List Char)
  | [], acc => if acc.isEmpty then [] else [acc.reverse]
  | c :: rest, acc =>
    if pyIsSpace c then
      if acc.isEmpty then wordsAux rest [] else acc.reverse :: wordsAux rest []
    else wordsAux rest (c :: acc)

/-- Python `str.split()` (no argument: split on whitespace runs, no empty
parts). -/
def pySplit (s : List Char) : List (List Char) := wordsAux s []

/-- Python `str.splitlines(keepends=True)`. -/
def splitlines : List Char → List (List Char)
  | [] => []
  | c :: rest =>
    if isLineBreak c then
      match c, rest with
      | '\r', '\n' :: rest2 => ['\r', '\n'] :: splitlines rest2
      | c, rest => [c] :: splitlines rest
    else
      match splitlines rest with
      | [] => [[c]]
      | l :: ls => (c :: l) :: ls

/-- Concatenation of a list of character lists (Python `"".join`). -/
def joinl (ls : List (List Char)) : List Char := ls.foldr (· ++ ·) []

theorem joinl_nil : joinl [] = [] := rfl

theorem joinl_cons (l : List Char) (ls : List (List Char)) :
    joinl (l :: ls) = l ++ joinl ls := rfl

theorem joinl_append (a b : List (List Char)) :
    joinl (a ++ b) = joinl a ++ joinl b := by
  induction a with
  | nil => rfl
  | cons l ls ih => simp [joinl_cons, ih, List.append_assoc]

/-! ## Embedding of `src/header_guard/core.py` -/

/-- The tuple `HEADER_SUFFIXES` from core.py. -/
def HEADER_SUFFIXES : List (List Char) :=
  [strl ".h", strl ".hh", strl ".hpp", strl ".hxx", strl ".h++"]

/-- The tuple `COMMENT_ONLY_PREFIXES` from core.py: `//`, `/*`, `*`, `*/`. -/
def COMMENT_ONLY_PREFIXES : List (List Char) :=
  [['/', '/'], ['/', '*'], ['*'], ['*', '/']]

/-- The constant `DEFAULT_SPACES_BETWEEN_ENDIF_AND_COMMENT` from core.py. -/
def DEFAULT_SPACES : Nat := 2

/-- ASCII lowering, Python `str.lower` restricted to ASCII (the only
characters it is compared against are the ASCII suffix literals). -/
def pyLowerChar (c : Char) : Char :=
  if 'A' ≤ c ∧ c ≤ 'Z' then Char.ofNat (c.toNat + 32) else c

/-- Python `str.lower` on a character list (ASCII range). -/
def pyLower (s : List Char) : List Char := s.map pyLowerChar

/-- Python `pathlib.PurePath.suffix` computed from the final path
component: `i = name.rfind('.'); name[i:] if 0 < i < len(name) - 1 else ''`. -/
def pySuffix (name : List Char) : List Char :=
  match (name.reverse.takeWhile (fun c => c ≠ '.')) with
  | ext =>
    -- position of the last '.' from the end; `ext` is what follows it
    if ext.length = name.length then []                 -- no '.' at all
    else
      let i := name.length - 1 - ext.length             -- index of last '.'
      if 0 < i ∧ i < name.length - 1 then name.drop i else []

/-- `is_header` from core.py: the path's suffix, lowered, is one of
`HEADER_SUFFIXES`.  The path is represented by its final component. -/
def is_header (name : List Char) : Bool :=
  HEADER_SUFFIXES.contains (pyLower (pySuffix name))

/-- `clean_part`, step 1: Python `str.upper`, embedded exactly for code
points up to U+00FF.  Lowercase ASCII maps into `A`–`Z`; in the Latin-1
supplement `ß` (U+00DF) maps to `"SS"`, `ÿ` (U+00FF) to `Ÿ` (U+0178), `µ`
(U+00B5) to `Μ` (U+039C), and `à`–`þ` except `÷` map down by 0x20. -/
def pyUpperChar (c : Char) : List Char :=
  let n := c.toNat
  if 0x61 ≤ n ∧ n ≤ 0x7a then [Char.ofNat (n - 32)]
  else if n = 0xdf then ['S', 'S']
  else if n = 0xff then [Char.ofNat 0x178]
  else if n = 0xb5 then [Char.ofNat 0x39c]
  else if 0xe0 ≤ n ∧ n ≤ 0xfe ∧ n ≠ 0xf7 then [Char.ofNat (n - 32)]
  else [c]

/-- Python `str.upper` on a character list. -/
def pyUpper (s : List Char) : List Char := s.flatMap pyUpperChar

/-- Python `str.isalnum` per character, embedded exactly for code points
up to U+00FF: ASCII letters and digits, and in the Latin-1 supplement the
letters `ª² ³µ¹º¼½¾` and `À`–`ÿ` except `×` and `÷`. -/
def pyIsAlnum (c : Char) : Bool :=
  let n := c.toNat
  (0x30 ≤ n && n ≤ 0x39) || (0x41 ≤ n && n ≤ 0x5a) || (0x61 ≤ n && n ≤ 0x7a) ||
  n = 0xaa || n = 0xb2 || n = 0xb3 || n = 0xb5 || n = 0xb9 || n = 0xba ||
  (0xbc ≤ n && n ≤ 0xbe) ||
  (0xc0 ≤ n && n ≤ 0xff && !(n = 0xd7) && !(n = 0xf7)) ||
  (0x100 ≤ n && n ≤ 0x17f)

/-- Python `str.isdigit` per character, for code points up to U+00FF:
ASCII digits and the superscripts `¹²³`. -/
def pyIsDigit (c : Char) : Bool :=
  let n := c.toNat
  (0x30 ≤ n && n ≤ 0x39) || n = 0xb2 || n = 0xb3 || n = 0xb9

/-- Python `re.sub("_+", "_", s)`: collapse runs of underscores. -/
def collapseUnderscores : List Char → List Char
  | [] => []
  | [c] => [c]
  | c :: c2 :: rest =>
    if c = '_' ∧ c2 = '_' then collapseUnderscores (c2 :: rest)
    else c :: collapseUnderscores (c2 :: rest)

/-- `clean_part` from core.py. -/
def clean_part (part : List Char) : List Char :=
  collapseUnderscores
    ((pyUpper part).map (fun ch => if pyIsAlnum ch then ch else '_'))

/-- Python `str.strip("_")`. -/
def stripUnderscores (s : List Char) : List Char :=
  dropWhileEnd (fun c => c = '_') (s.dropWhile (fun c => c = '_'))

/-- `ensure_valid_start` from core.py (`name` is never empty at the call
site; the empty case is unreachable). -/
def ensure_valid_start (name : List Char) : List Char :=
  match name with
  | [] => name
  | c :: _ => if pyIsDigit c then '_' :: name else name

/-- Python `"_".join`. -/
def joinUnderscore : List (List Char) → List Char
  | [] => []
  | [p] => p
  | p :: ps => p ++ '_' :: joinUnderscore ps

/-- `header_guard_name` from core.py, as a function of the components of
the path of the file relative to the repository root (`relative.parts`). -/
def header_guard_name (parts : List (List Char)) : List Char :=
  let cleaned := parts.map (fun p => stripUnderscores (clean_part p))
  let kept := cleaned.filter (fun p => !p.isEmpty)
  let name := if (joinUnderscore kept).isEmpty then strl "HEADER"
              else joinUnderscore kept
  ensure_valid_start name ++ ['_']

/-- First regex alternative of `LEADING_COMMENTS` in core.py:
`\s*//[^\n]*\n`.  Returns the consumed characters and the remainder.  The
greedy subpatterns are deterministic: the whitespace run cannot overlap
`//`, and `[^\n]*` cannot overlap the final `\n`. -/
def matchLineComment (s : List Char) : Option (List Char × List Char) :=
  if (strl "//").isPrefixOf (s.dropWhile pyIsSpace) then
    match ((s.dropWhile pyIsSpace).drop 2).dropWhile (fun c => c ≠ '\n') with
    | '\n' :: tail =>
      some (s.takeWhile pyIsSpace ++ strl "//"
        ++ ((s.dropWhile pyIsSpace).drop 2).takeWhile (fun c => c ≠ '\n')
        ++ ['\n'], tail)
    | _ => none
  else none

/-- Scan for the first occurrence of `*/` (the lazy `.*?\*/` with
`re.DOTALL`).  Returns the characters up to and including `*/` and the
remainder. -/
def findClose : List Char → Option (List Char × List Char)
  | [] => none
  | c :: rest =>
    if c = '*' then
      match rest with
      | '/' :: rest2 => some (['*', '/'], rest2)
      | _ => (findClose rest).map (fun p => (c :: p.1, p.2))
    else (findClose rest).map (fun p => (c :: p.1, p.2))

/-- Second regex alternative of `LEADING_COMMENTS`: `/\*.*?\*/\s*`. -/
def matchBlockComment (s : List Char) : Option (List Char × List Char) :=
  if (strl "/*").isPrefixOf s then
    match findClose (s.drop 2) with
    | some (inner, tail) =>
      some (strl "/*" ++ inner ++ tail.takeWhile pyIsSpace,
            tail.dropWhile pyIsSpace)
    | none => none
  else none

/-- One iteration of the starred group of `LEADING_COMMENTS` (the two
alternatives in regex order). -/
def matchUnit (s : List Char) : Option (List Char × List Char) :=
  match matchLineComment s with
  | some r => some r
  | none => matchBlockComment s

/-- Fuel-driven worker for `leadComments`: greedily repeat `matchUnit`.
Since nothing follows the starred group in the pattern, Python's
backtracking matcher returns exactly this greedy result. -/
def leadAux : Nat → List Char → List Char
  | 0, _ => []
  | fuel + 1, s =>
    match matchUnit s with
    | none => []
    | some (u, rest) => u ++ leadAux fuel rest

/-- `comment_prefix` from core.py: the match of
`^(?:\s*//[^\n]*\n|/\*.*?\*/\s*)*` (with `re.DOTALL`) at the start of the
text. -/
def leadComments (s : List Char) : List Char := leadAux s.length s

/-- Scan for the first line whose `strip()` is non-empty. -/
def scanCode : List (List Char) → Option Nat
  | [] => none
  | l :: rest =>
    if !(pyStrip l).isEmpty then some 0 else (scanCode rest).map (· + 1)

/-- `next_code_index` from core.py: index of the next line at or after
`start` whose `strip()` is non-empty. -/
def next_code_index (lines : List (List Char)) (start : Nat) : Option Nat :=
  (scanCode (lines.drop start)).map (· + start)

/-- `is_pragma_once` from core.py: `line.lstrip().startswith("#pragma once")`. -/
def is_pragma_once (line : List Char) : Bool :=
  (strl "#pragma once").isPrefixOf (line.dropWhile pyIsSpace)

/-- `guard_name_from_ifndef` from core.py. -/
def guard_name_from_ifndef (line : List Char) : Option (List Char) :=
  match pySplit (pyStrip line) with
  | p0 :: p1 :: _ => if p0 = strl "#ifndef" then some p1 else none
  | _ => none

/-- `guard_name_from_define` from core.py. -/
def guard_name_from_define (line : List Char) : Option (List Char) :=
  match pySplit (pyStrip line) with
  | p0 :: p1 :: _ => if p0 = strl "#define" then some p1 else none
  | _ => none

/-- `macro_guard_define_index` from core.py (the index of the `#define`
line matching `name`). -/
def mgDefineIndex (lines : List (List Char)) (start : Nat) (name : List Char) :
    Option Nat :=
  match next_code_index lines (start + 1) with
  | some idx =>
    if guard_name_from_define (lines.getD idx []) = some name then some idx
    else none
  | none => none

/-- Python substring test `pat in s` on character lists. -/
def containsSub (s pat : List Char) : Bool :=
  match s with
  | [] => pat.isEmpty
  | _ :: rest => pat.isPrefixOf s || containsSub rest pat

/-- `matches_endif` from core.py. -/
def matches_endif (line : List Char) (name : List Char) : Bool :=
  if !(strl "#endif").isPrefixOf line then false
  else line = strl "#endif" || containsSub line name

/-- `_is_comment_only_line` from core.py. -/
def isCommentOnlyLine (line : List Char) : Bool :=
  let stripped := pyStrip line
  !stripped.isEmpty &&
    COMMENT_ONLY_PREFIXES.any (fun p => p.isPrefixOf stripped)

/-- A line that `guard_end_index` skips on its backwards scan: blank after
stripping, or comment-only. -/
def skipLine (l : List Char) : Bool :=
  (pyStrip l).isEmpty || isCommentOnlyLine (pyStrip l)

/-- Backwards scan of `guard_end_index`, expressed on the reversed line
list; the result is the distance of the chosen line from the end. -/
def guardEndRev (name : List Char) : List (List Char) → Option Nat
  | [] => none
  | l :: rest =>
    if skipLine l then (guardEndRev name rest).map (· + 1)
    else if matches_endif (pyStrip l) name then some 0 else none

/-- `guard_end_index` from core.py: iterate the lines from the last to the
first, skipping blank and comment-only lines; the first remaining line is
the answer when it closes the guard, otherwise there is no guard end. -/
def guard_end_index (lines : List (List Char)) (name : List Char) : Option Nat :=
  (guardEndRev name lines.reverse).map (fun j => lines.length - 1 - j)

/-- `remove_guard_segments` from core.py:
`lines[:start] + lines[start+1:define] + lines[define+1:end] + lines[end+1:]`. -/
def remove_guard_segments (lines : List (List Char))
    (start defineIdx endIdx : Nat) : List (List Char) :=
  lines.take start ++ ((lines.drop (start + 1)).take (defineIdx - (start + 1)))
    ++ ((lines.drop (defineIdx + 1)).take (endIdx - (defineIdx + 1)))
    ++ lines.drop (endIdx + 1)

/-- `_strip_macro_guard` from core.py, returning `(body, suffix, removed)`. -/
def stripMacroGuardTriple (lines : List (List Char)) (start : Nat) :
    List (List Char) × List (List Char) × Bool :=
  match guard_name_from_ifndef (lines.getD start []) with
  | none => (lines, [], false)
  | some name =>
    match mgDefineIndex lines start name with
    | none => (lines, [], false)
    | some defineIdx =>
      match guard_end_index lines name with
      | none => (lines, [], false)
      | some endIdx =>
        (lines.take start
          ++ ((lines.drop (start + 1)).take (defineIdx - (start + 1)))
          ++ ((lines.drop (defineIdx + 1)).take (endIdx - (defineIdx + 1))),
         lines.drop (endIdx + 1), true)

/-- `strip_macro_guard` from core.py. -/
def strip_macro_guard (lines : List (List Char)) (start : Nat) :
    List (List Char) × Bool :=
  let r := stripMacroGuardTriple lines start
  (r.1 ++ r.2.1, r.2.2)

/-- `_remove_guard_structure` from core.py. -/
def removeGuardStructure (lines : List (List Char)) :
    List (List Char) × List (List Char) × Bool :=
  match next_code_index lines 0 with
  | none => (lines, [], false)
  | some start =>
    if is_pragma_once (lines.getD start []) then
      (lines.take start ++ lines.drop (start + 1), [], true)
    else stripMacroGuardTriple lines start

/-- `remove_guard_lines` from core.py. -/
def remove_guard_lines (lines : List (List Char)) :
    List (List Char) × Bool :=
  let r := removeGuardStructure lines
  (r.1 ++ r.2.1, r.2.2)

/-- Body normalisation inside `build_guard`: strip leading newlines, then
guarantee a trailing newline on a non-empty body. -/
def bgContent (body : List Char) : List Char :=
  let c := pyLstripNewlines body
  if c.isEmpty then c
  else if c.getLast? = some '\n' then c
  else c ++ ['\n']

/-- `build_guard` from core.py. -/
def build_guard (guard : List Char) (body : List Char) (spaces : Nat) :
    List Char :=
  strl "#ifndef " ++ guard ++ ['\n'] ++ strl "#define " ++ guard
    ++ strl "\n\n" ++ bgContent body
    ++ strl "#endif" ++ List.replicate spaces ' ' ++ strl "// " ++ guard
    ++ ['\n']

/-- `ensure_guard` from core.py. -/
def ensure_guard (text : List Char) (guard : List Char) (spaces : Nat) :
    List Char :=
  let pre := leadComments text
  let lines := splitlines (text.drop pre.length)
  let r := removeGuardStructure lines
  pre ++ build_guard guard (joinl r.1) spaces ++ joinl r.2.1

/-! ## Embedding of `header_guard.py` (the alternative implementation)

These definitions mirror the regex-driven pipeline of the single-file
implementation.  They are exercised on concrete inputs only; the regex
scanners are embedded as deterministic matchers (each greedy subpattern of
the regexes involved is followed by a character outside its class, so
Python's backtracking engine behaves deterministically, and nothing
follows the outermost groups, so greedy repetition never backtracks). -/

/-- The set `HEADER_EXTS` from header_guard.py. -/
def HEADER_EXTS : List (List Char) :=
  [strl ".h", strl ".hpp", strl ".hh", strl ".hxx", strl ".inl", strl ".tpp"]

/-- `is_header_file` from header_guard.py. -/
def is_header_file (name : List Char) : Bool :=
  HEADER_EXTS.contains (pyLower (pySuffix name))

/-- Regex character class `[A-Za-z0-9_]` (the tail of the NAME group). -/
def nameChar (c : Char) : Bool :=
  ('A' ≤ c && c ≤ 'Z') || ('a' ≤ c && c ≤ 'z') || ('0' ≤ c && c ≤ '9') || c = '_'

/-- Regex character class `[A-Za-z_]` (the head of the NAME group). -/
def nameStartChar (c : Char) : Bool :=
  ('A' ≤ c && c ≤ 'Z') || ('a' ≤ c && c ≤ 'z') || c = '_'

/-- Largest index `j` into `run` with `run[j] = '\n'` (where the greedy
`\s*` before a multiline `$` or a literal `\n` backtracks to). -/
def lastNewlineIdx (run : List Char) : Option Nat :=
  (run.reverse.findIdx? (fun c => c = '\n')).map (fun k => run.length - 1 - k)

/-- Match `\s*#\s*KW\s+NAME\s*$` (multiline `$`) at the start of `t`.
Returns the captured NAME and the offset in `t` of the match end (the `$`
position).  Used for both halves of `GUARD_START_RE`. -/
def matchDirectiveAt (kw : List Char) (t : List Char) : Option (List Char × Nat) :=
  let w1 := t.takeWhile pyIsSpace
  let t1 := t.dropWhile pyIsSpace
  match t1 with
  | '#' :: t2 =>
    let w2 := t2.takeWhile pyIsSpace
    let t3 := t2.dropWhile pyIsSpace
    if kw.isPrefixOf t3 then
      let t4 := t3.drop kw.length
      let w3 := t4.takeWhile pyIsSpace
      let t5 := t4.dropWhile pyIsSpace
      if w3.isEmpty then none
      else
        match t5 with
        | c :: _ =>
          if nameStartChar c then
            let nm := t5.takeWhile nameChar
            let t6 := t5.drop nm.length
            let r := t6.takeWhile pyIsSpace
            let consumed := w1.length + 1 + w2.length + kw.length + w3.length
                              + nm.length
            if (t6.drop r.length).isEmpty then some (nm, consumed + r.length)
            else match lastNewlineIdx r with
              | some j => some (nm, consumed + j)
              | none => none
          else none
        | [] => none
    else none
  | _ => none

/-- Whether `p` is a position where a multiline `^` matches in `s`. -/
def lineStartPos (s : List Char) (p : Nat) : Bool :=
  p = 0 || s.getD (p - 1) ' ' = '\n'

/-- Minimal extension of the lazy `.*?` of `GUARD_START_RE`: the first
position `p ≥ from` where `^` matches and
`\s*#\s*define\s+NAME\s*$` matches with the given NAME. -/
def findDefineFrom (s : List Char) (name : List Char) :
    Nat → Nat → Option Nat
  | 0, _ => none
  | fuel + 1, p =>
    if p > s.length then none
    else
      if lineStartPos s p then
        match matchDirectiveAt (strl "define") (s.drop p) with
        | some (nm, e) =>
          if nm = name then some (p + e) else findDefineFrom s name fuel (p + 1)
        | none => findDefineFrom s name fuel (p + 1)
      else findDefineFrom s name fuel (p + 1)

/-- `re.search` of `GUARD_START_RE`: the leftmost start position (a line
start) where the `#ifndef NAME` half matches and a matching
`#define NAME` half is found later.  Returns
`(m.start(), m.end(), NAME)`. -/
def findGuardStartFrom (s : List Char) :
    Nat → Nat → Option (Nat × Nat × List Char)
  | 0, _ => none
  | fuel + 1, p =>
    if p > s.length then none
    else
      if lineStartPos s p then
        match matchDirectiveAt (strl "ifndef") (s.drop p) with
        | some (nm, e1) =>
          match findDefineFrom s nm (s.length + 2) (p + e1) with
          | some e2 => some (p, e2, nm)
          | none => findGuardStartFrom s fuel (p + 1)
        | none => findGuardStartFrom s fuel (p + 1)
      else findGuardStartFrom s fuel (p + 1)

/-- One match attempt of `END_RE` (`^\s*#\s*endif\b.*(?:\r?\n)?`) at the
start of `t`; returns the match length. -/
def matchEndifAt (t : List Char) : Option Nat :=
  let w1 := t.takeWhile pyIsSpace
  let t1 := t.dropWhile pyIsSpace
  match t1 with
  | '#' :: t2 =>
    let w2 := t2.takeWhile pyIsSpace
    let t3 := t2.dropWhile pyIsSpace
    if (strl "endif").isPrefixOf t3 then
      let t4 := t3.drop 5
      -- the word boundary after `endif`
      match t4 with
      | c :: _ => if nameChar c then none else
          let rest := t4.takeWhile (fun c => c ≠ '\n')
          let t5 := t4.drop rest.length
          let nl : Nat := if t5.isEmpty then 0 else 1
          some (w1.length + 1 + w2.length + 5 + rest.length + nl)
      | [] => some (w1.length + 1 + w2.length + 5)
    else none
  | _ => none

/-- `re.finditer` of `END_RE` from position `p` (non-overlapping, left to
right): the spans `(start, end)` of all matches. -/
def endMatchesFrom (s : List Char) : Nat → Nat → List (Nat × Nat)
  | 0, _ => []
  | fuel + 1, p =>
    if p > s.length then []
    else
      if lineStartPos s p then
        match matchEndifAt (s.drop p) with
        | some len => (p, p + len) :: endMatchesFrom s fuel (p + len)
        | none => endMatchesFrom s fuel (p + 1)
      else endMatchesFrom s fuel (p + 1)

/-- `find_guard` from header_guard.py: the `GUARD_START_RE` search plus
the last `END_RE` match after it; returns
`(m.start(), m.end(), e.start(), e.end(), NAME)`. -/
def find_guard (s : List Char) :
    Option (Nat × Nat × Nat × Nat × List Char) :=
  match findGuardStartFrom s (s.length + 2) 0 with
  | none => none
  | some (a, bs, nm) =>
    match (endMatchesFrom s (s.length + 2) bs).getLast? with
    | some (be, be2) => some (a, bs, be, be2, nm)
    | none => none

/-- ASCII case-insensitive prefix test (for `PRAGMA_RE`'s
`re.IGNORECASE`). -/
def isPrefixOfCI (pat t : List Char) : Bool :=
  (pyLower pat).isPrefixOf (pyLower t)

/-- One match attempt of `PRAGMA_RE`
(`^\s*#\s*pragma\s+once\s*(?:\r?\n)?`, case-insensitive) at the start of
`t`; returns the match length. -/
def pragmaMatchLen (t : List Char) : Option Nat :=
  let w1 := t.takeWhile pyIsSpace
  let t1 := t.dropWhile pyIsSpace
  match t1 with
  | '#' :: t2 =>
    let w2 := t2.takeWhile pyIsSpace
    let t3 := t2.dropWhile pyIsSpace
    if isPrefixOfCI (strl "pragma") t3 then
      let t4 := t3.drop 6
      let w3 := t4.takeWhile pyIsSpace
      let t5 := t4.dropWhile pyIsSpace
      if w3.isEmpty then none
      else if isPrefixOfCI (strl "once") t5 then
        let t6 := t5.drop 4
        let w4 := t6.takeWhile pyIsSpace
        some (w1.length + 1 + w2.length + 6 + w3.length + 4 + w4.length)
      else none
    else none
  | _ => none

/-- `strip_pragma_once` from header_guard.py. -/
def strip_pragma_once (s : List Char) (i : Nat) : List Char × Bool :=
  match pragmaMatchLen (s.drop i) with
  | some len => (s.take i ++ s.drop (i + len), true)
  | none => (s, false)

/-- Third regex alternative of `LEAD_RE` in header_guard.py: `\s*\n`. -/
def matchBlankLine (s : List Char) : Option (List Char × List Char) :=
  let run := s.takeWhile pyIsSpace
  match lastNewlineIdx run with
  | some j => some (s.take (j + 1), s.drop (j + 1))
  | none => none

/-- One iteration of the plussed group of `LEAD_RE` (its three
alternatives in regex order). -/
def matchUnitHG (s : List Char) : Option (List Char × List Char) :=
  match matchLineComment s with
  | some r => some r
  | none =>
    match matchBlockComment s with
    | some r => some r
    | none => matchBlankLine s

/-- Fuel-driven greedy repetition for `LEAD_RE`. -/
def leadAuxHG : Nat → List Char → List Char
  | 0, _ => []
  | fuel + 1, s =>
    match matchUnitHG s with
    | none => []
    | some (u, rest) => u ++ leadAuxHG fuel rest

/-- `leading_comments_span` from header_guard.py: `m.end()` of the
`LEAD_RE` match, or `0`. -/
def leading_comments_span (s : List Char) : Nat := (leadAuxHG s.length s).length

/-- Regex class `[A-Z0-9]` used by `macro_from_rel_path`. -/
def upperDigit (c : Char) : Bool :=
  ('A' ≤ c && c ≤ 'Z') || ('0' ≤ c && c ≤ '9')

/-- Python `re.sub(r"[^A-Z0-9]+", "_", s)`: replace each maximal run of
characters outside `[A-Z0-9]` with one underscore. -/
def subNonAlnumRuns : List Char → List Char
  | [] => []
  | [c] => if upperDigit c then [c] else ['_']
  | c :: c2 :: rest =>
    if upperDigit c then c :: subNonAlnumRuns (c2 :: rest)
    else if upperDigit c2 then '_' :: subNonAlnumRuns (c2 :: rest)
    else subNonAlnumRuns (c2 :: rest)

/-- `macro_from_rel_path` from header_guard.py (on the relative path's
string form). -/
def nameFromRelPath (rel : List Char) : List Char :=
  let s0 := pyUpper (rel.map (fun c => if c = '\\' then '/' else c))
  let s1 := stripUnderscores (subNonAlnumRuns s0) ++ ['_']
  collapseUnderscores s1

/-- `guard_block` from header_guard.py. -/
def guard_block (m : List Char) : List Char :=
  strl "#ifndef " ++ m ++ ['\n'] ++ strl "#define " ++ m ++ ['\n']

/-- `end_block` from header_guard.py. -/
def end_block (m : List Char) : List Char :=
  strl "#endif  // " ++ m ++ ['\n']

/-- `insert_guard` from header_guard.py. -/
def insert_guard (s : List Char) (i : Nat) (m : List Char) : List Char :=
  let body := if s.getLast? = some '\n' then s.drop i else s.drop i ++ ['\n']
  s.take i ++ guard_block m ++ body ++ end_block m

/-- `rebuild_guard` from header_guard.py. -/
def rebuild_guard (s : List Char) (span : Nat × Nat × Nat × Nat × List Char)
    (m : List Char) : List Char :=
  let a := span.1
  let bs := span.2.1
  let be := span.2.2.1
  let be2 := span.2.2.2.1
  let body0 := (s.drop bs).take (be - bs)
  let body1 := if body0.head? = some '\n' then body0.drop 1 else body0
  let body := if body1.getLast? = some '\n' then body1 else body1 ++ ['\n']
  s.take a ++ guard_block m ++ body ++ end_block m ++ s.drop be2

/-- `process_header_text` from header_guard.py. -/
def process_header_text (s : List Char) (relPath : List Char) : List Char :=
  let m := nameFromRelPath relPath
  let i := leading_comments_span s
  let s1 := (strip_pragma_once s i).1
  match find_guard s1 with
  | some g => rebuild_guard s1 g m
  | none => insert_guard s1 i m

/-- Effect of `process_paths`/`apply_guard` from core.py on a single
file's content (file I/O abstracted away: `apply_guard` reads the text,
computes the guard name from the repository-relative path components, and
writes back `ensure_guard` of the text; non-headers are skipped). -/
def processFileContent (name : List Char) (parts : List (List Char))
    (content : List Char) (spaces : Nat) : List Char :=
  if is_header name then ensure_guard content (header_guard_name parts) spaces
  else content

/-! ## C10, C5, C6 -/

/-- C10: wrapping an empty body is well-defined: `build_guard G "" k` is
exactly the `#ifndef`/`#define` head, one blank line, and the `#endif`
line with `k` spaces before the trailing comment — no extra blank line for
the empty body — and `ensure_guard` on the empty string produces exactly
that fresh guard. -/
theorem build_guard_empty_body (G : List Char) (k : Nat) :
    build_guard G [] k
      = strl "#ifndef " ++ G ++ ['\n'] ++ strl "#define " ++ G ++ strl "\n\n"
          ++ strl "#endif" ++ List.replicate k ' ' ++ strl "// " ++ G ++ ['\n']
    ∧ ensure_guard [] G k = build_guard G [] k := by
  constructor
  · simp [build_guard, bgContent, pyLstripNewlines]
  · simp [ensure_guard, leadComments, leadAux, matchUnit, matchLineComment,
      matchBlockComment, strl, removeGuardStructure, next_code_index,
      scanCode, joinl, splitlines]

/-- C5: fresh insertion with the default spacing 2: for input
`"int x;\n"` and guard name `A_H_` (derived from path `a.h` relative to
its own directory) the output is exactly
`#ifndef A_H_\n#define A_H_\n\nint x;\n#endif  // A_H_\n`; in general
`build_guard` emits `#ifndef`/`#define` lines, a blank line, the
normalised body, and `#endif` with the configured spacing before the
`//`-comment naming the guard. -/
theorem fresh_insertion_default_spacing :
    ensure_guard (strl "int x;\n") (strl "A_H_") 2
        = strl "#ifndef A_H_\n#define A_H_\n\nint x;\n#endif  // A_H_\n"
    ∧ header_guard_name [strl "a.h"] = strl "A_H_"
    ∧ ∀ (G body : List Char) (k : Nat),
        build_guard G body k
          = strl "#ifndef " ++ G ++ ['\n'] ++ strl "#define " ++ G
              ++ strl "\n\n" ++ bgContent body
              ++ strl "#endif" ++ List.replicate k ' ' ++ strl "// " ++ G
              ++ ['\n'] :=
  ⟨by decide, by decide, fun _ _ _ => rfl⟩

/-- C6: the leading comment prefix of the input appears unmodified at the
very start of the rewrite output, immediately followed by the emitted
guard's `#ifndef` line (so the prefix is never placed inside the guard). -/
theorem leading_comments_preserved (t G : List Char) (k : Nat) :
    (leadComments t ++ (strl "#ifndef " ++ G ++ ['\n'])) <+:
      ensure_guard t G k := by
  have h : ensure_guard t G k
      = (leadComments t ++ (strl "#ifndef " ++ G ++ ['\n']))
        ++ (strl "#define " ++ G ++ strl "\n\n"
            ++ bgContent (joinl
                (removeGuardStructure
                  (splitlines (t.drop (leadComments t).length))).1)
            ++ strl "#endif" ++ List.replicate k ' ' ++ strl "// " ++ G
            ++ ['\n']
            ++ joinl (removeGuardStructure
                (splitlines (t.drop (leadComments t).length))).2.1) := by
    simp [ensure_guard, build_guard, List.append_assoc]
  rw [h]
  exact List.prefix_append _ _

/-! ## C7, C8: file-kind recognition and repository-root discovery -/

/-- C7 counterexample: the claimed suffix set is wrong for the program's
`is_header_file`: it accepts `.inl` (not in the claimed set) and rejects
`.h++` (in the claimed set), diverging from core.py's `is_header`. -/
theorem header_suffix_sets_diverge :
    is_header_file (strl "x.inl") = true
    ∧ is_header (strl "x.inl") = false
    ∧ is_header (strl "x.h++") = true
    ∧ is_header_file (strl "x.h++") = false := by
  refine ⟨?_, ?_, ?_, ?_⟩ <;> decide

/-- C7 (amended): core.py's `is_header` recognises exactly the suffixes
`.h`, `.hh`, `.hpp`, `.hxx`, `.h++` compared case-insensitively, and a
file whose suffix is not recognised is passed through completely
unmodified by `process_paths`. -/
theorem is_header_exact_and_noop (name : List Char) :
    (is_header name = true
      ↔ pyLower (pySuffix name) ∈
          [strl ".h", strl ".hh", strl ".hpp", strl ".hxx", strl ".h++"])
    ∧ ∀ (parts : List (List Char)) (content : List Char) (spaces : Nat),
        is_header name = false →
          processFileContent name parts content spaces = content := by
  constructor
  · simp [is_header, HEADER_SUFFIXES, List.elem_iff]
  · intro parts content spaces h
    simp [processFileContent, h]

/-- C7 witness: concrete application of `is_header_exact_and_noop`. -/
theorem is_header_exact_and_noop_concrete :
    (is_header (strl "x.HPP") = true
      ↔ pyLower (pySuffix (strl "x.HPP")) ∈
          [strl ".h", strl ".hh", strl ".hpp", strl ".hxx", strl ".h++"])
    ∧ (is_header (strl "x.cpp") = false
        ∧ processFileContent (strl "x.cpp") [strl "x.cpp"] (strl "int x;\n") 2
            = strl "int x;\n") :=
  ⟨(is_header_exact_and_noop (strl "x.HPP")).1,
   by decide,
   (is_header_exact_and_noop (strl "x.cpp")).2 [strl "x.cpp"]
     (strl "int x;\n") 2 (by decide)⟩

/-- A path, modelled by its list of components relative to the filesystem
anchor (`[]` is the anchor itself). -/
def pathParents (p : List (List Char)) : List (List (List Char)) :=
  (List.range p.length).map (fun k => p.take (p.length - 1 - k))

/-- `find_git_dir` from core.py over an abstract filesystem
`ex : path → Bool` (the `.exists()` test): the first of
`(path,) + path.parents` containing a `.git` entry. -/
def find_git_dir (ex : List (List Char) → Bool) (p : List (List Char)) :
    Option (List (List Char)) :=
  (p :: pathParents p).find? (fun c => ex (c ++ [strl ".git"]))

/-- `locate_repo_root` from core.py: raises `ValueError` (modelled as
`Except.error`) when `find_git_dir` finds nothing. -/
def locate_repo_root (ex : List (List Char) → Bool) (p : List (List Char)) :
    Except (List Char) (List (List Char)) :=
  match find_git_dir ex p with
  | none => Except.error (strl "Repository root not found")
  | some root => Except.ok root

/-- `find_repo_root` from header_guard.py: same ancestor walk, but on
failure it falls back to `Path(start.anchor or "/")` (the anchor, `[]`)
instead of raising. -/
def find_repo_root (ex : List (List Char) → Bool) (p : List (List Char)) :
    List (List Char) :=
  match (p :: pathParents p).find? (fun d => ex (d ++ [strl ".git"])) with
  | some d => d
  | none => []

/-- C8 counterexample: with no `.git` anywhere, the program's
`find_repo_root` does not raise: it falls back to the anchor directory
(while core.py's `locate_repo_root` raises). -/
theorem find_repo_root_falls_back :
    find_repo_root (fun _ => false) [strl "home", strl "x.h"] = []
    ∧ locate_repo_root (fun _ => false) [strl "home", strl "x.h"]
        = Except.error (strl "Repository root not found") := by
  constructor <;> rfl

/-- C8 (amended): when no candidate directory (the path and each of its
ancestors) contains a `.git` entry, core.py's `locate_repo_root` raises
`ValueError("Repository root not found")` to the caller. -/
theorem locate_repo_root_error (ex : List (List Char) → Bool)
    (p : List (List Char))
    (h : ∀ c ∈ p :: pathParents p, ex (c ++ [strl ".git"]) = false) :
    locate_repo_root ex p = Except.error (strl "Repository root not found") := by
  have hfind : find_git_dir ex p = none := by
    apply List.find?_eq_none.mpr
    intro c hc
    simp [h c hc]
  simp [locate_repo_root, hfind]

/-- C8 witness: concrete application of `locate_repo_root_error`. -/
theorem locate_repo_root_error_concrete :
    locate_repo_root (fun _ => false) [strl "a", strl "b", strl "x.h"]
      = Except.error (strl "Repository root not found") :=
  locate_repo_root_error (fun _ => false) [strl "a", strl "b", strl "x.h"]
    (by intro c hc; rfl)

/-! ## C3: characterisation of `guard_end_index` -/

theorem gerev_iff (name : List Char) (rl : List (List Char)) (j : Nat) :
    guardEndRev name rl = some j
      ↔ j < rl.length ∧ (rl.take j).all skipLine = true
        ∧ skipLine (rl.getD j []) = false
        ∧ matches_endif (pyStrip (rl.getD j [])) name = true := by
  induction rl generalizing j with
  | nil => simp [guardEndRev]
  | cons l rest ih =>
    by_cases hs : skipLine l
    · cases j with
      | zero => simp [guardEndRev, hs]
      | succ j0 =>
        rw [show guardEndRev name (l :: rest)
            = (guardEndRev name rest).map (· + 1) by simp [guardEndRev, hs]]
        simp only [Option.map_eq_some', ih, List.length_cons,
          List.take_succ_cons, List.all_cons, List.getD_cons_succ,
          Nat.succ_lt_succ_iff, Bool.and_eq_true, hs, true_and]
        constructor
        · rintro ⟨a, ⟨h1, h2, h3, h4⟩, h5⟩
          have ha : a = j0 := by omega
          subst ha
          exact ⟨h1, h2, h3, h4⟩
        · rintro ⟨h1, h2, h3, h4⟩
          exact ⟨j0, ⟨h1, h2, h3, h4⟩, rfl⟩
    · by_cases hm : matches_endif (pyStrip l) name
      · cases j with
        | zero => simp [guardEndRev, hs, hm]
        | succ j0 => simp [guardEndRev, hs, hm]
      · cases j with
        | zero => simp [guardEndRev, hs, hm]
        | succ j0 => simp [guardEndRev, hs, hm]

theorem getD_reverse_idx (l : List (List Char)) (j : Nat) (h : j < l.length) :
    l.reverse.getD j [] = l.getD (l.length - 1 - j) [] := by
  rw [List.getD_eq_getElem?_getD, List.getD_eq_getElem?_getD,
    List.getElem?_reverse h]

/-- Characterisation of `guard_end_index`: it returns `some i` exactly
when line `i` is the last line of the file that is neither blank nor
comment-only, and that line is an `#endif` that is bare or contains the
guard name as a substring. -/
theorem guard_end_index_iff (lines : List (List Char)) (name : List Char)
    (i : Nat) :
    guard_end_index lines name = some i
      ↔ i < lines.length
        ∧ skipLine (lines.getD i []) = false
        ∧ matches_endif (pyStrip (lines.getD i [])) name = true
        ∧ (lines.drop (i + 1)).all skipLine = true := by
  constructor
  · intro h
    obtain ⟨j, hj, hi⟩ := Option.map_eq_some'.mp h
    obtain ⟨hlt, hall, hskip, hm⟩ := (gerev_iff name lines.reverse j).mp hj
    rw [List.length_reverse] at hlt
    rw [getD_reverse_idx lines j hlt] at hskip hm
    rw [List.take_reverse, List.all_reverse] at hall
    rw [← hi]
    refine ⟨by omega, hskip, hm, ?_⟩
    have hix : lines.length - 1 - j + 1 = lines.length - j := by omega
    rw [hix]
    exact hall
  · rintro ⟨hi, hskip, hm, hall⟩
    apply Option.map_eq_some'.mpr
    refine ⟨lines.length - 1 - i, ?_, by omega⟩
    apply (gerev_iff name lines.reverse (lines.length - 1 - i)).mpr
    have hlen : lines.length - 1 - i < lines.length := by omega
    have hgd : lines.reverse.getD (lines.length - 1 - i) []
        = lines.getD i [] := by
      rw [getD_reverse_idx lines _ hlen]
      congr 1
      omega
    refine ⟨by simpa using hlen, ?_, by rw [hgd]; exact hskip,
      by rw [hgd]; exact hm⟩
    rw [List.take_reverse, List.all_reverse]
    have hix : lines.length - (lines.length - 1 - i) = i + 1 := by omega
    rw [hix]
    exact hall

theorem dropWhileEnd_pfx (p : Char → Bool) (s : List Char) :
    dropWhileEnd p s <+: s := by
  have h : (dropWhileEnd p s).reverse <:+ s.reverse := by
    simpa [dropWhileEnd] using
      (List.dropWhile_suffix p : (s.reverse).dropWhile p <:+ s.reverse)
  exact List.reverse_suffix.mp h

theorem dropWhileEnd_cons_shape (p : Char → Bool) (c : Char) (t : List Char) :
    dropWhileEnd p (c :: t) = []
      ∨ ∃ t2, dropWhileEnd p (c :: t) = c :: t2 := by
  rcases dropWhileEnd_pfx p (c :: t) with ⟨r, hr⟩
  cases hdw : dropWhileEnd p (c :: t) with
  | nil => exact Or.inl rfl
  | cons x xs =>
    right
    rw [hdw] at hr
    cases hr
    exact ⟨xs, rfl⟩

theorem pyStrip_cons_of_not_space {c : Char} (hc : pyIsSpace c = false)
    (t : List Char) :
    pyStrip (c :: t) = [] ∨ ∃ t2, pyStrip (c :: t) = c :: t2 := by
  unfold pyStrip
  rw [List.dropWhile_cons_of_neg (by simp [hc])]
  exact dropWhileEnd_cons_shape pyIsSpace c t

/-- A line whose `strip()` starts with `#` is neither blank nor
comment-only, so the backwards scan of `guard_end_index` does not skip it. -/
theorem skipLine_false_of_strip_hash {l t : List Char}
    (h : pyStrip l = '#' :: t) : skipLine l = false := by
  have hco : isCommentOnlyLine ('#' :: t) = false := by
    unfold isCommentOnlyLine
    rcases @pyStrip_cons_of_not_space '#' (by decide) t with h2 | ⟨t2, h2⟩ <;>
      simp [h2, COMMENT_ONLY_PREFIXES, List.isPrefixOf]
  unfold skipLine
  rw [h, hco]
  rfl

theorem matches_endif_strip_shape {l name : List Char}
    (h : matches_endif (pyStrip l) name = true) :
    ∃ t, pyStrip l = strl "#endif" ++ t := by
  unfold matches_endif at h
  by_cases hp : (strl "#endif").isPrefixOf (pyStrip l)
  · obtain ⟨t, ht⟩ := List.isPrefixOf_iff_prefix.mp hp
    exact ⟨t, ht.symm⟩
  · simp [hp] at h

theorem skipLine_false_of_matches {l name : List Char}
    (h : matches_endif (pyStrip l) name = true) : skipLine l = false := by
  obtain ⟨t, ht⟩ := matches_endif_strip_shape h
  have ht2 : pyStrip l = '#' :: (['e', 'n', 'd', 'i', 'f'] ++ t) := by
    rw [ht]
    rfl
  exact skipLine_false_of_strip_hash ht2

theorem all_getD {α : Type} (p : α → Bool) (l : List α) (d : α) (k : Nat)
    (hall : l.all p = true) (hk : k < l.length) : p (l.getD k d) = true := by
  rw [List.getD_eq_getElem l d hk]
  exact List.all_eq_true.mp hall _ (List.getElem_mem hk)

/-- C3 (amended): for a found guard start, the closing line chosen is the
last line of the whole file that is neither blank nor comment-only,
provided that line is an `#endif` that is bare or contains NAME as a
substring (in which case it is also the last matching `#endif` in the
file); otherwise — even if a matching `#endif` exists earlier, followed by
further code — no closing line is chosen and the guard is treated as
absent. -/
theorem guard_end_choice (lines : List (List Char)) (name : List Char)
    (i : Nat) :
    (guard_end_index lines name = some i
      ↔ i < lines.length
        ∧ skipLine (lines.getD i []) = false
        ∧ matches_endif (pyStrip (lines.getD i [])) name = true
        ∧ (lines.drop (i + 1)).all skipLine = true)
    ∧ (guard_end_index lines name = some i →
        ∀ j, i < j → j < lines.length →
          matches_endif (pyStrip (lines.getD j [])) name = false) := by
  refine ⟨guard_end_index_iff lines name i, ?_⟩
  intro h j hij hj
  obtain ⟨-, -, -, hall⟩ := (guard_end_index_iff lines name i).mp h
  by_cases hm : matches_endif (pyStrip (lines.getD j [])) name = true
  · exfalso
    have hx : skipLine ((lines.drop (i + 1)).getD (j - (i + 1)) []) = true := by
      apply all_getD _ _ _ _ hall
      rw [List.length_drop]
      omega
    have hidx : i + 1 + (j - (i + 1)) = j := by omega
    have hy : (lines.drop (i + 1)).getD (j - (i + 1)) [] = lines.getD j [] := by
      rw [List.getD_eq_getElem?_getD, List.getD_eq_getElem?_getD,
        List.getElem?_drop, hidx]
    rw [hy, skipLine_false_of_matches hm] at hx
    exact Bool.false_ne_true hx
  · exact Bool.eq_false_iff.mpr hm

/-- C3 counterexample: a guard start is found (lines 0 and 1), a matching
closing `#endif` line exists in the file (line 2, which contains `N`),
yet because a code line follows it, `guard_end_index` reports `none` and
the guard is treated as absent — the claimed "last matching `#endif` in
the whole file" is not chosen. -/
theorem guard_end_not_last_matching :
    guard_name_from_ifndef (strl "#ifndef N") = some (strl "N")
    ∧ mgDefineIndex
        [strl "#ifndef N", strl "#define N", strl "#endif  // N",
         strl "int tail;"] 0 (strl "N") = some 1
    ∧ matches_endif (pyStrip (strl "#endif  // N")) (strl "N") = true
    ∧ guard_end_index
        [strl "#ifndef N", strl "#define N", strl "#endif  // N",
         strl "int tail;"] (strl "N") = none
    ∧ (stripMacroGuardTriple
        [strl "#ifndef N", strl "#define N", strl "#endif  // N",
         strl "int tail;"] 0).2.2 = false := by
  refine ⟨?_, ?_, ?_, ?_, ?_⟩ <;> decide

/-! ## C9 and C4: guard removal removes exactly the three guard lines -/

theorem wordsAux_acc_head (s : List Char) : ∀ (acc : List Char), acc ≠ [] →
    ∃ ext rest2, wordsAux s acc = (acc.reverse ++ ext) :: rest2
      ∧ ext.isPrefixOf s = true := by
  induction s with
  | nil =>
    intro acc hacc
    refine ⟨[], [], ?_, by simp [List.isPrefixOf]⟩
    simp [wordsAux, hacc]
  | cons c t ih =>
    intro acc hacc
    by_cases hc : pyIsSpace c
    · refine ⟨[], wordsAux t [], ?_, by simp [List.isPrefixOf]⟩
      simp [wordsAux, hc, hacc]
    · obtain ⟨ext, rest2, heq, hpre⟩ := ih (c :: acc) (by simp)
      refine ⟨c :: ext, rest2, ?_, ?_⟩
      · rw [show wordsAux (c :: t) acc = wordsAux t (c :: acc) by
          simp [wordsAux, hc]]
        rw [heq]
        simp
      · simp [List.isPrefixOf, hpre]

/-- The first word returned by `str.split()` starts at the first
non-whitespace character. -/
theorem pySplit_head {s w : List Char} {rest : List (List Char)}
    (h : pySplit s = w :: rest) :
    ∃ c t ext, s.dropWhile pyIsSpace = c :: t ∧ w = c :: ext
      ∧ ext.isPrefixOf t = true := by
  induction s with
  | nil => simp [pySplit, wordsAux] at h
  | cons c t ih =>
    by_cases hc : pyIsSpace c
    · rw [show pySplit (c :: t) = pySplit t by simp [pySplit, wordsAux, hc]] at h
      obtain ⟨c2, t2, ext, h1, h2, h3⟩ := ih h
      exact ⟨c2, t2, ext, by simp [List.dropWhile, hc, h1], h2, h3⟩
    · rw [show pySplit (c :: t) = wordsAux t [c] by simp [pySplit, wordsAux, hc]] at h
      obtain ⟨ext, rest2, heq, hpre⟩ := wordsAux_acc_head t [c] (by simp)
      rw [heq] at h
      cases h
      exact ⟨c, t, ext, by simp [List.dropWhile, hc], by simp, hpre⟩

theorem dropWhile_cons_not {p : Char → Bool} {l : List Char} {c : Char}
    {t : List Char} (h : l.dropWhile p = c :: t) : p c = false := by
  have hne : l.dropWhile p ≠ [] := by simp [h]
  have := List.head_dropWhile_not p l hne
  rwa [show (l.dropWhile p).head hne = c by simp [h]] at this

/-- `strip()` output has no leading whitespace. -/
theorem pyStrip_no_leading_ws (l : List Char) :
    (pyStrip l).dropWhile pyIsSpace = pyStrip l := by
  cases hs : pyStrip l with
  | nil => rfl
  | cons c t =>
    have hpre : pyStrip l <+: l.dropWhile pyIsSpace := dropWhileEnd_pfx _ _
    rw [hs] at hpre
    obtain ⟨r, hr⟩ := hpre
    have hx : l.dropWhile pyIsSpace = c :: (t ++ r) := by
      rw [← hr]
      rfl
    have hc : pyIsSpace c = false := dropWhile_cons_not hx
    rw [List.dropWhile_cons_of_neg (by simp [hc])]

/-- A line recognised by `guard_name_from_define` strips to `#define …`:
it is not skipped by the backwards scan and never matches as an `#endif`. -/
theorem define_line_shape {l nm : List Char}
    (h : guard_name_from_define l = some nm) :
    (∃ t, pyStrip l = '#' :: 'd' :: t) ∧ skipLine l = false
      ∧ ∀ nm2, matches_endif (pyStrip l) nm2 = false := by
  unfold guard_name_from_define at h
  split at h
  case h_2 => exact absurd h (by simp)
  case h_1 p0 p1 tail heq =>
    split at h
    case isFalse => exact absurd h (by simp)
    case isTrue hp0 =>
      subst hp0
      obtain ⟨c, t, ext, hdw, hw, hext⟩ := pySplit_head heq
      rw [pyStrip_no_leading_ws l] at hdw
      have hc : c = '#' := by
        have := hw
        rw [show strl "#define" = '#' :: strl "define" from rfl] at this
        exact (List.cons.injEq _ _ _ _ ▸ this).1.symm
      subst hc
      have hext2 : ext = strl "define" := by
        have := hw
        rw [show strl "#define" = '#' :: strl "define" from rfl] at this
        exact ((List.cons.injEq _ _ _ _ ▸ this).2).symm
      subst hext2
      have hshape : ∃ t2, pyStrip l = '#' :: 'd' :: t2 := by
        cases t with
        | nil =>
          rw [show strl "define" = 'd' :: strl "efine" from rfl] at hext
          simp [List.isPrefixOf] at hext
        | cons c2 t2 =>
          have hc2 : c2 = 'd' := by
            rw [show strl "define" = 'd' :: strl "efine" from rfl] at hext
            simp only [List.isPrefixOf, Bool.and_eq_true, beq_iff_eq] at hext
            exact hext.1.symm
          exact ⟨t2, by rw [hdw, hc2]⟩
      refine ⟨hshape, skipLine_false_of_strip_hash hdw, ?_⟩
      intro nm2
      unfold matches_endif
      rw [hdw]
      have hpf : (strl "#endif").isPrefixOf ('#' :: t) = false := by
        cases t with
        | nil =>
          rw [show strl "define" = 'd' :: strl "efine" from rfl] at hext
          simp [List.isPrefixOf] at hext
        | cons c2 t2 =>
          have hc2 : c2 = 'd' := by
            rw [show strl "define" = 'd' :: strl "efine" from rfl] at hext
            simp only [List.isPrefixOf, Bool.and_eq_true, beq_iff_eq] at hext
            exact hext.1.symm
          subst hc2
          rw [show strl "#endif" = '#' :: 'e' :: strl "ndif" from rfl]
          simp [List.isPrefixOf]
      simp [hpf]

theorem scanCode_some {lines : List (List Char)} {s : Nat}
    (h : scanCode lines = some s) :
    s < lines.length ∧ (pyStrip (lines.getD s [])).isEmpty = false := by
  induction lines generalizing s with
  | nil => simp [scanCode] at h
  | cons l rest ih =>
    by_cases hl : (pyStrip l).isEmpty
    · rw [show scanCode (l :: rest) = (scanCode rest).map (· + 1) by
        simp [scanCode, hl]] at h
      obtain ⟨j, hj, hs⟩ := Option.map_eq_some'.mp h
      obtain ⟨h1, h2⟩ := ih hj
      subst hs
      exact ⟨by simpa using Nat.succ_lt_succ h1, by simpa using h2⟩
    · rw [show scanCode (l :: rest) = some 0 by
        simp [scanCode, hl]] at h
      cases h
      exact ⟨by simp, by simpa using hl⟩

theorem next_code_index_some {lines : List (List Char)} {st s : Nat}
    (h : next_code_index lines st = some s) :
    st ≤ s ∧ s < lines.length
      ∧ (pyStrip (lines.getD s [])).isEmpty = false := by
  obtain ⟨j, hj, hs⟩ := Option.map_eq_some'.mp h
  obtain ⟨h1, h2⟩ := scanCode_some hj
  rw [List.length_drop] at h1
  subst hs
  have hgd : (lines.drop st).getD j [] = lines.getD (j + st) [] := by
    rw [List.getD_eq_getElem?_getD, List.getD_eq_getElem?_getD,
      List.getElem?_drop, Nat.add_comm]
  rw [hgd] at h2
  exact ⟨by omega, by omega, h2⟩

theorem mgDefineIndex_some {lines : List (List Char)} {start d : Nat}
    {name : List Char} (h : mgDefineIndex lines start name = some d) :
    start + 1 ≤ d ∧ d < lines.length
      ∧ guard_name_from_define (lines.getD d []) = some name := by
  unfold mgDefineIndex at h
  split at h
  case h_2 => exact absurd h (by simp)
  case h_1 idx heq =>
    split at h
    case isFalse => exact absurd h (by simp)
    case isTrue hdef =>
      cases h
      obtain ⟨h1, h2, h3⟩ := next_code_index_some heq
      exact ⟨h1, h2, hdef⟩

/-- If a line's `strip()` starts `#c2…` with `c2 ≠ 'p'`, the line is not a
`#pragma once` line. -/
theorem pragma_false_of_strip {l : List Char} {c2 : Char} {t : List Char}
    (h : pyStrip l = '#' :: c2 :: t) (hc2 : c2 ≠ 'p') :
    is_pragma_once l = false := by
  have hpre : pyStrip l <+: l.dropWhile pyIsSpace := dropWhileEnd_pfx _ _
  rw [h] at hpre
  obtain ⟨r, hr⟩ := hpre
  unfold is_pragma_once
  rw [← hr]
  rw [show strl "#pragma once" = '#' :: 'p' :: strl "ragma once" from rfl]
  rw [List.cons_append, List.cons_append]
  simp only [List.isPrefixOf]
  have hpc : ('p' == c2) = false := beq_eq_false_iff_ne.mpr (fun hh => hc2 hh.symm)
  simp [hpc]

theorem all_skip_after {lines : List (List Char)} {i j : Nat}
    (hall : (lines.drop (i + 1)).all skipLine = true) (hij : i < j)
    (hj : j < lines.length) : skipLine (lines.getD j []) = true := by
  have hx : skipLine ((lines.drop (i + 1)).getD (j - (i + 1)) []) = true := by
    apply all_getD _ _ _ _ hall
    rw [List.length_drop]
    omega
  have hidx : i + 1 + (j - (i + 1)) = j := by omega
  rwa [List.getD_eq_getElem?_getD, List.getElem?_drop, hidx,
    ← List.getD_eq_getElem?_getD] at hx

/-- The three indices of a detected classic guard are ordered. -/
theorem guard_indices_order {lines : List (List Char)} {s d e : Nat}
    {name : List Char}
    (h2 : mgDefineIndex lines s name = some d)
    (h3 : guard_end_index lines name = some e) :
    s + 1 ≤ d ∧ d < e ∧ e < lines.length := by
  obtain ⟨hsd, hdlen, hdef⟩ := mgDefineIndex_some h2
  obtain ⟨helen, heskip, hem, hall⟩ := (guard_end_index_iff lines name e).mp h3
  obtain ⟨hshape, hdskip, hdnotend⟩ := define_line_shape hdef
  refine ⟨hsd, ?_, helen⟩
  rcases Nat.lt_trichotomy d e with h | h | h
  · exact h
  · exfalso
    rw [← h] at hem
    rw [hdnotend name] at hem
    simp at hem
  · exfalso
    rw [all_skip_after hall h hdlen] at hdskip
    simp at hdskip

theorem decomp1 (l : List (List Char)) (s : Nat) (h : s < l.length) :
    l = l.take s ++ l.getD s [] :: l.drop (s + 1) := by
  conv_lhs => rw [← List.take_append_drop s l]
  congr 1
  rw [List.getD_eq_getElem l [] h]
  exact List.drop_eq_getElem_cons h

theorem decomp3 (l : List (List Char)) (s d e : Nat)
    (h1 : s < d) (h2 : d < e) (h3 : e < l.length) :
    l = l.take s ++ l.getD s [] ::
        ((l.drop (s + 1)).take (d - (s + 1)) ++ l.getD d [] ::
          ((l.drop (d + 1)).take (e - (d + 1)) ++ l.getD e [] ::
            l.drop (e + 1))) := by
  have hd2 : l.drop d = l.getD d [] :: l.drop (d + 1) := by
    rw [List.getD_eq_getElem l [] (by omega)]
    exact List.drop_eq_getElem_cons (by omega)
  have hd3 : l.drop e = l.getD e [] :: l.drop (e + 1) := by
    rw [List.getD_eq_getElem l [] h3]
    exact List.drop_eq_getElem_cons h3
  have hs1 : l.drop (s + 1) = (l.drop (s + 1)).take (d - (s + 1)) ++ l.drop d := by
    conv_lhs => rw [← List.take_append_drop (d - (s + 1)) (l.drop (s + 1))]
    congr 1
    rw [List.drop_drop]
    congr 1
    omega
  have hs2 : l.drop (d + 1) = (l.drop (d + 1)).take (e - (d + 1)) ++ l.drop e := by
    conv_lhs => rw [← List.take_append_drop (e - (d + 1)) (l.drop (d + 1))]
    congr 1
    rw [List.drop_drop]
    congr 1
    omega
  calc l = l.take s ++ l.getD s [] :: l.drop (s + 1) := decomp1 l s (by omega)
    _ = l.take s ++ l.getD s []
          :: ((l.drop (s + 1)).take (d - (s + 1)) ++ l.drop d) := by
        nth_rewrite 1 [hs1]
        rfl
    _ = l.take s ++ l.getD s []
          :: ((l.drop (s + 1)).take (d - (s + 1))
            ++ l.getD d [] :: l.drop (d + 1)) := by rw [hd2]
    _ = l.take s ++ l.getD s []
          :: ((l.drop (s + 1)).take (d - (s + 1))
            ++ l.getD d [] :: ((l.drop (d + 1)).take (e - (d + 1))
              ++ l.drop e)) := by
        nth_rewrite 1 [hs2]
        rfl
    _ = _ := by rw [hd3]

/-- C9: when a classic guard is detected at indices `(s, d, e)`, removal
returns precisely the original line sequence with only the `#ifndef`
line, the matching `#define` line, and the closing `#endif` line removed;
every other line is kept verbatim and in order. -/
theorem remove_guard_segments_exact (lines : List (List Char))
    (name : List Char) (s d e : Nat)
    (h1 : guard_name_from_ifndef (lines.getD s []) = some name)
    (h2 : mgDefineIndex lines s name = some d)
    (h3 : guard_end_index lines name = some e) :
    remove_guard_segments lines s d e
      = ((lines.eraseIdx e).eraseIdx d).eraseIdx s := by
  obtain ⟨hsd, hde, helen⟩ := guard_indices_order h2 h3
  have e2 : (lines.eraseIdx e).eraseIdx d
      = lines.take d
        ++ ((lines.drop (d + 1)).take (e - (d + 1)) ++ lines.drop (e + 1)) := by
    rw [List.eraseIdx_eq_take_drop_succ, List.eraseIdx_eq_take_drop_succ,
      List.take_append_of_le_length (by rw [List.length_take]; omega),
      List.take_take, Nat.min_eq_left (by omega),
      List.drop_append_of_le_length (by rw [List.length_take]; omega),
      List.drop_take]
  have e3 : ((lines.eraseIdx e).eraseIdx d).eraseIdx s
      = lines.take s
        ++ ((lines.drop (s + 1)).take (d - (s + 1))
          ++ ((lines.drop (d + 1)).take (e - (d + 1)) ++ lines.drop (e + 1))) := by
    rw [List.eraseIdx_eq_take_drop_succ, e2,
      List.take_append_of_le_length (by rw [List.length_take]; omega),
      List.take_take, Nat.min_eq_left (by omega),
      List.drop_append_of_le_length (by rw [List.length_take]; omega),
      List.drop_take]
  rw [e3]
  unfold remove_guard_segments
  simp [List.append_assoc]

/-- C9 witness: concrete application of `remove_guard_segments_exact`. -/
theorem remove_guard_segments_exact_concrete :
    remove_guard_segments
      [strl "#ifndef N\n", strl "#define N\n", strl "int x;\n",
       strl "#endif // N\n"] 0 1 3
      = ((([strl "#ifndef N\n", strl "#define N\n", strl "int x;\n",
            strl "#endif // N\n"]).eraseIdx 3).eraseIdx 1).eraseIdx 0 :=
  remove_guard_segments_exact
    [strl "#ifndef N\n", strl "#define N\n", strl "int x;\n",
     strl "#endif // N\n"] (strl "N") 0 1 3
    (by decide) (by decide) (by decide)

/-- C4: a `#pragma once` directive is removed only when it sits at the
first non-blank line of the remainder after the leading comment prefix:
the number of `#pragma once` lines in the removal result equals the
number in the input, minus one exactly when the first non-blank line is
itself a `#pragma once` line — every later `#pragma once` line is left in
the output unchanged (in particular it is never removed as part of a
classic guard, whose three removed lines are never `#pragma once` lines). -/
theorem pragma_once_only_at_start (lines : List (List Char)) :
    List.countP is_pragma_once (remove_guard_lines lines).1
      = List.countP is_pragma_once lines
        - (match next_code_index lines 0 with
           | some s => if is_pragma_once (lines.getD s []) then 1 else 0
           | none => 0) := by
  unfold remove_guard_lines removeGuardStructure
  cases hnc : next_code_index lines 0 with
  | none => simp
  | some s =>
    obtain ⟨-, hslen, -⟩ := next_code_index_some hnc
    by_cases hp : is_pragma_once (lines.getD s []) = true
    · simp only [if_pos hp, List.append_nil]
      have hdec := decomp1 lines s hslen
      conv_rhs => rw [hdec]
      simp only [List.countP_append, List.countP_cons, hp, if_true]
      omega
    · have hp2 : is_pragma_once (lines.getD s []) = false :=
        Bool.eq_false_iff.mpr hp
      simp only [if_neg hp, Nat.sub_zero]
      unfold stripMacroGuardTriple
      cases hgn : guard_name_from_ifndef (lines.getD s []) with
      | none => simp
      | some name =>
        simp only
        cases hmd : mgDefineIndex lines s name with
        | none => simp
        | some d =>
          simp only
          cases hge : guard_end_index lines name with
          | none => simp
          | some e =>
            simp only
            obtain ⟨hsd, hde, helen⟩ := guard_indices_order hmd hge
            obtain ⟨-, hdlen, hdef⟩ := mgDefineIndex_some hmd
            obtain ⟨⟨td, hdshape⟩, -, -⟩ := define_line_shape hdef
            obtain ⟨helen2, -, hem, -⟩ :=
              (guard_end_index_iff lines name e).mp hge
            obtain ⟨te, hte⟩ := matches_endif_strip_shape hem
            have hpd : is_pragma_once (lines.getD d []) = false :=
              pragma_false_of_strip hdshape (by decide)
            have hpe : is_pragma_once (lines.getD e []) = false := by
              have hshape2 : pyStrip (lines.getD e [])
                  = '#' :: 'e' :: (strl "ndif" ++ te) := by
                rw [hte]
                rfl
              exact pragma_false_of_strip hshape2 (by decide)
            have hdec := decomp3 lines s d e (by omega) hde helen
            conv_rhs => rw [hdec]
            simp only [List.countP_append, List.countP_cons, hp2, hpd, hpe,
              Bool.false_eq_true, if_false]
            omega

/-! ## C2: the guard-name pattern -/

theorem toNat_ofNat_lt {n : Nat} (h : n < 55296) : (Char.ofNat n).toNat = n := by
  unfold Char.ofNat
  split
  · rfl
  · next h2 => exact absurd (Or.inl (by omega)) h2

/-- The character class `[A-Z0-9_]` of the spec's guard-name pattern. -/
def guardBodyChar (c : Char) : Bool :=
  (0x41 ≤ c.toNat && c.toNat ≤ 0x5a) || (0x30 ≤ c.toNat && c.toNat ≤ 0x39)
    || c.toNat = 0x5f

/-- The character class `[A-Z_]` of the spec's guard-name pattern. -/
def guardHeadChar (c : Char) : Bool :=
  (0x41 ≤ c.toNat && c.toNat ≤ 0x5a) || c.toNat = 0x5f

/-- The spec's pattern `^[A-Z_][A-Z0-9_]*_$`, written from the spec for
comparison with `header_guard_name`. -/
def matchesGuardPattern : List Char → Bool
  | [] => false
  | c :: rest =>
    guardHeadChar c && !rest.isEmpty && rest.dropLast.all guardBodyChar
      && (rest.getLast? == some '_')

theorem mem_collapseUnderscores :
    ∀ (s : List Char) (c : Char), c ∈ collapseUnderscores s → c ∈ s := by
  intro s
  induction s with
  | nil => intro c hc; simpa [collapseUnderscores] using hc
  | cons a s ih =>
    cases s with
    | nil => intro c hc; simpa [collapseUnderscores] using hc
    | cons b t =>
      intro c hc
      unfold collapseUnderscores at hc
      split at hc
      · exact List.mem_cons_of_mem a (ih c hc)
      · rcases List.mem_cons.mp hc with h | h
        · rw [h]; exact List.mem_cons_self a (b :: t)
        · exact List.mem_cons_of_mem a (ih c h)

theorem mem_stripUnderscores {c : Char} {s : List Char}
    (h : c ∈ stripUnderscores s) : c ∈ s := by
  have h1 : c ∈ s.dropWhile (fun c => c = '_') :=
    (dropWhileEnd_pfx _ _).sublist.mem h
  exact (List.dropWhile_sublist _).mem h1

theorem pyUpperChar_ascii {a : Char} (ha : a.toNat < 128) :
    ∀ b ∈ pyUpperChar a, b.toNat < 128
      ∧ ¬(97 ≤ b.toNat ∧ b.toNat ≤ 122) := by
  intro b hb
  unfold pyUpperChar at hb
  dsimp only at hb
  split_ifs at hb with h1 h2 h3 h4 h5
  · rw [List.mem_singleton.mp hb, toNat_ofNat_lt (by omega)]
    omega
  · omega
  · omega
  · omega
  · omega
  · rw [List.mem_singleton.mp hb]
    exact ⟨ha, by omega⟩

theorem clean_part_chars {part : List Char}
    (h : ∀ c ∈ part, c.toNat < 128) :
    ∀ c ∈ clean_part part, guardBodyChar c = true := by
  intro c hc
  have hc2 := mem_collapseUnderscores _ c hc
  obtain ⟨b, hb, hfb⟩ := List.mem_map.mp hc2
  obtain ⟨a, ha, hab⟩ := List.mem_flatMap.mp hb
  obtain ⟨hb128, hbnl⟩ := pyUpperChar_ascii (h a ha) b hab
  subst hfb
  by_cases hal : pyIsAlnum b = true
  · rw [if_pos hal]
    unfold pyIsAlnum at hal
    unfold guardBodyChar
    simp only [Bool.or_eq_true, Bool.and_eq_true, decide_eq_true_eq,
      Bool.not_eq_true'] at hal ⊢
    omega
  · rw [if_neg hal]
    decide

theorem joinUnderscore_chars :
    ∀ (ps : List (List Char)),
      (∀ p ∈ ps, ∀ c ∈ p, guardBodyChar c = true) →
      ∀ c ∈ joinUnderscore ps, guardBodyChar c = true := by
  intro ps
  induction ps with
  | nil => intro _ c hc; simp [joinUnderscore] at hc
  | cons p ps ih =>
    intro hps c hc
    cases ps with
    | nil =>
      exact hps p (by simp) c (by simpa [joinUnderscore] using hc)
    | cons q r =>
      rw [show joinUnderscore (p :: q :: r) = p ++ '_' :: joinUnderscore (q :: r)
        from rfl] at hc
      rcases List.mem_append.mp hc with h | h
      · exact hps p (by simp) c h
      · rcases List.mem_cons.mp h with h | h
        · rw [h]; decide
        · exact ih (fun p2 hp2 => hps p2 (List.mem_cons_of_mem p hp2)) c h

/-- C2 (amended): `header_guard_name` is a deterministic pure function of
the relative path's components, and for every relative path consisting of
ASCII characters the resulting name matches `^[A-Z_][A-Z0-9_]*_$`; for a
path containing a non-ASCII alphanumeric character the produced name can
fall outside this pattern. -/
theorem header_guard_name_pattern (parts : List (List Char))
    (h : ∀ p ∈ parts, ∀ c ∈ p, c.toNat < 128) :
    matchesGuardPattern (header_guard_name parts) = true := by
  have hchars : ∀ c ∈
      (if (joinUnderscore ((parts.map
            (fun p => stripUnderscores (clean_part p))).filter
            (fun p => !p.isEmpty))).isEmpty
       then strl "HEADER"
       else joinUnderscore ((parts.map
            (fun p => stripUnderscores (clean_part p))).filter
            (fun p => !p.isEmpty))),
      guardBodyChar c = true := by
    split
    · intro c hc
      fin_cases hc <;> decide
    · apply joinUnderscore_chars
      intro p hp c hc
      obtain ⟨p0, hp0, hpeq⟩ := List.mem_map.mp (List.mem_of_mem_filter hp)
      subst hpeq
      exact clean_part_chars (h p0 hp0) c (mem_stripUnderscores hc)
  have hne : (if (joinUnderscore ((parts.map
        (fun p => stripUnderscores (clean_part p))).filter
        (fun p => !p.isEmpty))).isEmpty
      then strl "HEADER"
      else joinUnderscore ((parts.map
        (fun p => stripUnderscores (clean_part p))).filter
        (fun p => !p.isEmpty))) ≠ [] := by
    split
    · decide
    · next hje => simpa using hje
  rw [show header_guard_name parts
      = ensure_valid_start
          (if (joinUnderscore ((parts.map
              (fun p => stripUnderscores (clean_part p))).filter
              (fun p => !p.isEmpty))).isEmpty
           then strl "HEADER"
           else joinUnderscore ((parts.map
              (fun p => stripUnderscores (clean_part p))).filter
              (fun p => !p.isEmpty))) ++ ['_'] from rfl]
  generalize hname :
    (if (joinUnderscore ((parts.map
        (fun p => stripUnderscores (clean_part p))).filter
        (fun p => !p.isEmpty))).isEmpty
     then strl "HEADER"
     else joinUnderscore ((parts.map
        (fun p => stripUnderscores (clean_part p))).filter
        (fun p => !p.isEmpty))) = name0 at hchars hne
  cases name0 with
  | nil => exact absurd rfl hne
  | cons c0 t0 =>
    have hc0 : guardBodyChar c0 = true := hchars c0 (by simp)
    have ht0 : ∀ c ∈ t0, guardBodyChar c = true :=
      fun c hc => hchars c (List.mem_cons_of_mem c0 hc)
    rw [show ensure_valid_start (c0 :: t0)
        = if pyIsDigit c0 then '_' :: c0 :: t0 else c0 :: t0 from rfl]
    by_cases hd : pyIsDigit c0 = true
    · rw [if_pos hd]
      rw [show ('_' :: c0 :: t0) ++ ['_'] = '_' :: ((c0 :: t0) ++ ['_'])
        from rfl]
      rw [show matchesGuardPattern ('_' :: ((c0 :: t0) ++ ['_']))
          = (guardHeadChar '_' && !((c0 :: t0) ++ ['_']).isEmpty
            && ((c0 :: t0) ++ ['_']).dropLast.all guardBodyChar
            && (((c0 :: t0) ++ ['_']).getLast? == some '_')) from rfl]
      rw [List.dropLast_concat, List.getLast?_concat]
      simp only [List.all_eq_true, Bool.and_eq_true]
      refine ⟨⟨⟨by decide, by simp⟩, ?_⟩, by simp⟩
      intro c hc
      rcases List.mem_cons.mp hc with h | h
      · rw [h]; exact hc0
      · exact ht0 c h
    · rw [if_neg hd]
      rw [show (c0 :: t0) ++ ['_'] = c0 :: (t0 ++ ['_']) from rfl]
      rw [show matchesGuardPattern (c0 :: (t0 ++ ['_']))
          = (guardHeadChar c0 && !(t0 ++ ['_']).isEmpty
            && (t0 ++ ['_']).dropLast.all guardBodyChar
            && ((t0 ++ ['_']).getLast? == some '_')) from rfl]
      rw [List.dropLast_concat, List.getLast?_concat]
      simp only [List.all_eq_true, Bool.and_eq_true]
      have hd2 : pyIsDigit c0 = false := Bool.eq_false_iff.mpr hd
      refine ⟨⟨⟨?_, by simp⟩, ht0⟩, by simp⟩
      have hdig : ¬(0x30 ≤ c0.toNat ∧ c0.toNat ≤ 0x39) := by
        intro hcon
        have hdt : pyIsDigit c0 = true := by
          unfold pyIsDigit
          simp only [Bool.or_eq_true, Bool.and_eq_true, decide_eq_true_eq]
          omega
        rw [hdt] at hd2
        exact absurd hd2 (by decide)
      unfold guardBodyChar at hc0
      unfold guardHeadChar
      simp only [Bool.or_eq_true, Bool.and_eq_true, decide_eq_true_eq]
        at hc0 ⊢
      omega

/-- C2 witness: concrete application of `header_guard_name_pattern`. -/
theorem header_guard_name_pattern_concrete :
    matchesGuardPattern (header_guard_name [strl "my-lib", strl "9a.h"])
      = true :=
  header_guard_name_pattern [strl "my-lib", strl "9a.h"] (by decide)

/-- C2 counterexample: the path component `Ø.h` (the non-ASCII letter `Ø`
is alphanumeric for Python and unchanged by `upper()`) yields the name
`Ø_H_`, which does not match `^[A-Z_][A-Z0-9_]*_$`. -/
theorem header_guard_name_pattern_fails :
    header_guard_name [strl "Ø.h"] = strl "Ø_H_"
    ∧ matchesGuardPattern (header_guard_name [strl "Ø.h"]) = false := by
  constructor <;> decide

/-- C3 witness: concrete application of `guard_end_choice`. -/
theorem guard_end_choice_concrete :
    matches_endif (pyStrip (([strl "#ifndef N\n", strl "#define N\n",
      strl "#endif // N\n", strl "// tail\n"]).getD 3 [])) (strl "N")
      = false :=
  (guard_end_choice [strl "#ifndef N\n", strl "#define N\n",
      strl "#endif // N\n", strl "// tail\n"] (strl "N") 2).2
    (by decide) 3 (by decide) (by decide)

/-! ## C1, part 1: stability of the leading-comment match

The key fact behind idempotence: re-running the `LEADING_COMMENTS` match
on its own output followed by a `#…` remainder re-consumes exactly the
same prefix. -/

theorem takeWhile_append_all {p : Char → Bool} :
    ∀ {a : List Char} (b : List Char), (∀ c ∈ a, p c = true) →
      (a ++ b).takeWhile p = a ++ b.takeWhile p := by
  intro a
  induction a with
  | nil => intro b _; rfl
  | cons c t ih =>
    intro b h
    rw [List.cons_append, List.takeWhile_cons_of_pos (h c (by simp)),
      ih b (fun c2 hc2 => h c2 (List.mem_cons_of_mem c hc2))]
    rfl

theorem dropWhile_append_all {p : Char → Bool} :
    ∀ {a : List Char} (b : List Char), (∀ c ∈ a, p c = true) →
      (a ++ b).dropWhile p = b.dropWhile p := by
  intro a
  induction a with
  | nil => intro b _; rfl
  | cons c t ih =>
    intro b h
    rw [List.cons_append, List.dropWhile_cons_of_pos (h c (by simp)),
      ih b (fun c2 hc2 => h c2 (List.mem_cons_of_mem c hc2))]

theorem head?_append_of_ne_nil {a : List Char} (b : List Char)
    (h : a ≠ []) : (a ++ b).head? = a.head? := by
  cases a with
  | nil => exact absurd rfl h
  | cons c t => rfl

theorem findClose_close (rest2 : List Char) :
    findClose ('*' :: '/' :: rest2) = some (['*', '/'], rest2) := rfl

theorem findClose_default {c : Char} {rest : List Char}
    (h : c ≠ '*' ∨ rest.head? ≠ some '/') :
    findClose (c :: rest) = (findClose rest).map (fun p => (c :: p.1, p.2)) := by
  by_cases hc : c = '*'
  · subst hc
    rcases h with h | h
    · exact absurd rfl h
    · cases rest with
      | nil => rfl
      | cons c2 r2 =>
        have hc2 : c2 ≠ '/' := by simpa using h
        conv_lhs => unfold findClose
        rw [if_pos rfl]
        split
        · rename_i rest3 heq3
          injection heq3 with h1 h2
          exact absurd h1 hc2
        · rfl
  · conv_lhs => unfold findClose
    rw [if_neg hc]

theorem findClose_decomp :
    ∀ (z a b : List Char), findClose z = some (a, b) →
      z = a ++ b ∧ a ≠ [] := by
  intro z
  induction z with
  | nil => intro a b h; simp [findClose] at h
  | cons c rest ih =>
    intro a b h
    by_cases hpat : c = '*' ∧ rest.head? = some '/'
    · obtain ⟨hc, hr⟩ := hpat
      subst hc
      cases rest with
      | nil => simp at hr
      | cons c2 r2 =>
        have hc2 : c2 = '/' := by simpa using hr
        subst hc2
        rw [findClose_close] at h
        cases h
        exact ⟨rfl, by simp⟩
    · have hd : c ≠ '*' ∨ rest.head? ≠ some '/' := by
        by_cases hc : c = '*'
        · exact Or.inr (fun hh => hpat ⟨hc, hh⟩)
        · exact Or.inl hc
      rw [findClose_default hd] at h
      obtain ⟨⟨a1, b1⟩, hab, hmap⟩ := Option.map_eq_some'.mp h
      obtain ⟨hz, hne⟩ := ih a1 b1 hab
      cases hmap
      exact ⟨by rw [List.cons_append, ← hz], by simp⟩

theorem findClose_refit :
    ∀ (z a b : List Char), findClose z = some (a, b) →
      ∀ y2, findClose (a ++ y2) = some (a, y2) := by
  intro z
  induction z with
  | nil => intro a b h; simp [findClose] at h
  | cons c rest ih =>
    intro a b h y2
    by_cases hpat : c = '*' ∧ rest.head? = some '/'
    · obtain ⟨hc, hr⟩ := hpat
      subst hc
      cases rest with
      | nil => simp at hr
      | cons c2 r2 =>
        have hc2 : c2 = '/' := by simpa using hr
        subst hc2
        rw [findClose_close] at h
        cases h
        exact findClose_close y2
    · have hd : c ≠ '*' ∨ rest.head? ≠ some '/' := by
        by_cases hc : c = '*'
        · exact Or.inr (fun hh => hpat ⟨hc, hh⟩)
        · exact Or.inl hc
      rw [findClose_default hd] at h
      obtain ⟨⟨a1, b1⟩, hab, hmap⟩ := Option.map_eq_some'.mp h
      obtain ⟨hz, hne⟩ := findClose_decomp rest a1 b1 hab
      cases hmap
      have hih := ih a1 b1 hab y2
      rw [List.cons_append]
      have hd2 : c ≠ '*' ∨ (a1 ++ y2).head? ≠ some '/' := by
        rcases hd with hd | hd
        · exact Or.inl hd
        · right
          rw [head?_append_of_ne_nil y2 hne]
          rw [hz, head?_append_of_ne_nil b1 hne] at hd
          exact hd
      rw [findClose_default hd2, hih]
      rfl

theorem matchLineComment_some {s u r : List Char}
    (h : matchLineComment s = some (u, r)) :
    ∃ ws2 mid,
      (∀ c ∈ ws2, pyIsSpace c = true) ∧ (∀ c ∈ mid, c ≠ '\n')
      ∧ s = ws2 ++ '/' :: '/' :: (mid ++ '\n' :: r)
      ∧ u = ws2 ++ '/' :: '/' :: (mid ++ ['\n']) := by
  unfold matchLineComment at h
  split at h
  case isFalse => exact absurd h (by simp)
  case isTrue hpre =>
    split at h
    case h_2 => exact absurd h (by simp)
    case h_1 tail heq =>
      obtain ⟨t2, ht2⟩ := List.isPrefixOf_iff_prefix.mp hpre
      have ht2' : s.dropWhile pyIsSpace = '/' :: '/' :: t2 := by
        rw [← ht2]
        rfl
      have hdrop2 : (s.dropWhile pyIsSpace).drop 2 = t2 := by
        rw [ht2']
        rfl
      rw [hdrop2] at heq h
      have hteq : t2
          = t2.takeWhile (fun c => decide (c ≠ '\n')) ++ '\n' :: tail := by
        conv_lhs =>
          rw [← List.takeWhile_append_dropWhile
            (fun c => decide (c ≠ '\n')) t2]
        rw [heq]
      cases h
      refine ⟨s.takeWhile pyIsSpace,
        t2.takeWhile (fun c => decide (c ≠ '\n')),
        fun c hc => List.mem_takeWhile_imp hc, ?_, ?_, ?_⟩
      · intro c hc
        have h2 := List.mem_takeWhile_imp hc
        exact of_decide_eq_true h2
      · conv_lhs => rw [← List.takeWhile_append_dropWhile pyIsSpace s]
        rw [ht2']
        conv_lhs => rw [hteq]
      · rw [show strl "//" = ['/', '/'] from rfl]
        simp

theorem matchLineComment_refit {ws2 mid : List Char}
    (hws : ∀ c ∈ ws2, pyIsSpace c = true) (hmid : ∀ c ∈ mid, c ≠ '\n')
    (y : List Char) :
    matchLineComment (ws2 ++ '/' :: '/' :: (mid ++ '\n' :: y))
      = some (ws2 ++ '/' :: '/' :: (mid ++ ['\n']), y) := by
  have hmid2 : ∀ c ∈ mid, (fun c => decide (c ≠ '\n')) c = true := by
    intro c hc
    simpa using hmid c hc
  have hdw : (ws2 ++ '/' :: '/' :: (mid ++ '\n' :: y)).dropWhile pyIsSpace
      = '/' :: '/' :: (mid ++ '\n' :: y) := by
    rw [dropWhile_append_all _ hws, List.dropWhile_cons_of_neg (by decide)]
  have htw : (ws2 ++ '/' :: '/' :: (mid ++ '\n' :: y)).takeWhile pyIsSpace
      = ws2 := by
    rw [takeWhile_append_all _ hws, List.takeWhile_cons_of_neg (by decide),
      List.append_nil]
  have htkm : (mid ++ '\n' :: y).takeWhile (fun c => decide (c ≠ '\n'))
      = mid := by
    rw [takeWhile_append_all _ hmid2, List.takeWhile_cons_of_neg (by decide),
      List.append_nil]
  have hdpm : (mid ++ '\n' :: y).dropWhile (fun c => decide (c ≠ '\n'))
      = '\n' :: y := by
    rw [dropWhile_append_all _ hmid2, List.dropWhile_cons_of_neg (by decide)]
  have hpre : (strl "//").isPrefixOf ('/' :: '/' :: (mid ++ '\n' :: y))
      = true := by
    rw [show strl "//" = ['/', '/'] from rfl]
    simp [List.isPrefixOf]
  unfold matchLineComment
  rw [hdw, htw, if_pos hpre,
    show ('/' :: '/' :: (mid ++ '\n' :: y)).drop 2 = mid ++ '\n' :: y
      from rfl, htkm, hdpm]
  rw [show strl "//" = ['/', '/'] from rfl]
  simp

theorem matchBlockComment_some {s u r : List Char}
    (h : matchBlockComment s = some (u, r)) :
    ∃ inner tail,
      s = '/' :: '*' :: (inner ++ tail)
      ∧ findClose (inner ++ tail) = some (inner, tail)
      ∧ u = '/' :: '*' :: (inner ++ tail.takeWhile pyIsSpace)
      ∧ r = tail.dropWhile pyIsSpace := by
  unfold matchBlockComment at h
  split at h
  case isFalse => exact absurd h (by simp)
  case isTrue hpre =>
    split at h
    case h_2 => exact absurd h (by simp)
    case h_1 inner tail heq =>
      obtain ⟨t2, ht2⟩ := List.isPrefixOf_iff_prefix.mp hpre
      have ht2' : s = '/' :: '*' :: t2 := by
        rw [← ht2]
        rfl
      have hdrop2 : s.drop 2 = t2 := by
        rw [ht2']
        rfl
      rw [hdrop2] at heq
      obtain ⟨htt, hne⟩ := findClose_decomp t2 inner tail heq
      cases h
      refine ⟨inner, tail, by rw [ht2', htt], by rw [← htt]; exact heq, ?_, rfl⟩
      rw [show strl "/*" = ['/', '*'] from rfl]
      simp

theorem matchBlockComment_refit {inner tail : List Char}
    (hfc : findClose (inner ++ tail) = some (inner, tail)) (y : List Char)
    (hy : ∀ c, y.head? = some c → pyIsSpace c = false) :
    matchBlockComment ('/' :: '*' :: (inner ++ tail.takeWhile pyIsSpace) ++ y)
        = some ('/' :: '*' :: (inner ++ tail.takeWhile pyIsSpace), y)
      ∧ matchLineComment ('/' :: '*' :: (inner ++ tail.takeWhile pyIsSpace) ++ y)
        = none := by
  have htwall : ∀ c ∈ tail.takeWhile pyIsSpace, pyIsSpace c = true :=
    fun c hc => List.mem_takeWhile_imp hc
  have htw2 : (tail.takeWhile pyIsSpace ++ y).takeWhile pyIsSpace
      = tail.takeWhile pyIsSpace := by
    rw [takeWhile_append_all _ htwall]
    cases y with
    | nil => simp
    | cons c t =>
      rw [List.takeWhile_cons_of_neg (by simp [hy c rfl]), List.append_nil]
  have hdw2 : (tail.takeWhile pyIsSpace ++ y).dropWhile pyIsSpace = y := by
    rw [dropWhile_append_all _ htwall]
    cases y with
    | nil => rfl
    | cons c t => rw [List.dropWhile_cons_of_neg (by simp [hy c rfl])]
  constructor
  · unfold matchBlockComment
    have hshape : '/' :: '*' :: (inner ++ tail.takeWhile pyIsSpace) ++ y
        = '/' :: '*' :: (inner ++ (tail.takeWhile pyIsSpace ++ y)) := by
      simp
    rw [hshape]
    rw [show (strl "/*").isPrefixOf
        ('/' :: '*' :: (inner ++ (tail.takeWhile pyIsSpace ++ y))) = true by
      rw [show strl "/*" = ['/', '*'] from rfl]
      simp [List.isPrefixOf]]
    rw [if_pos rfl]
    rw [show ('/' :: '*' :: (inner ++ (tail.takeWhile pyIsSpace ++ y))).drop 2
        = inner ++ (tail.takeWhile pyIsSpace ++ y) from rfl]
    rw [findClose_refit (inner ++ tail) inner tail hfc
      (tail.takeWhile pyIsSpace ++ y)]
    dsimp only
    rw [htw2, hdw2]
    rw [show strl "/*" = ['/', '*'] from rfl]
    simp
  · unfold matchLineComment
    rw [show ('/' :: '*' :: (inner ++ tail.takeWhile pyIsSpace) ++ y).dropWhile
          pyIsSpace
        = '/' :: ('*' :: (inner ++ tail.takeWhile pyIsSpace) ++ y) by
      rw [List.cons_append]
      exact List.dropWhile_cons_of_neg (by decide)]
    rw [show (strl "//").isPrefixOf
        ('/' :: ('*' :: (inner ++ tail.takeWhile pyIsSpace) ++ y)) = false by
      rw [show strl "//" = ['/', '/'] from rfl]
      rw [List.cons_append]
      simp [List.isPrefixOf]]
    simp

theorem matchUnit_decomp {s u r : List Char}
    (h : matchUnit s = some (u, r)) : s = u ++ r ∧ u ≠ [] := by
  unfold matchUnit at h
  cases hlc : matchLineComment s with
  | some p =>
    rw [hlc] at h
    cases h
    obtain ⟨ws2, mid, -, -, hs, hu⟩ := matchLineComment_some hlc
    constructor
    · rw [hs, hu]
      simp
    · rw [hu]
      simp
  | none =>
    rw [hlc] at h
    obtain ⟨inner, tail, hs, -, hu, hr⟩ := matchBlockComment_some h
    constructor
    · rw [hs, hu, hr]
      conv_lhs => rw [← List.takeWhile_append_dropWhile pyIsSpace tail]
      simp
    · rw [hu]
      simp

theorem matchUnit_refit {s u r : List Char}
    (h : matchUnit s = some (u, r)) (y : List Char)
    (hyr : ∀ c, y.head? = some c → pyIsSpace c = false ∨ r.head? = some c) :
    matchUnit (u ++ y) = some (u, y) := by
  unfold matchUnit at h ⊢
  cases hlc : matchLineComment s with
  | some p =>
    rw [hlc] at h
    cases h
    obtain ⟨ws2, mid, hws, hmid, hs, hu⟩ := matchLineComment_some hlc
    rw [hu, show (ws2 ++ '/' :: '/' :: (mid ++ ['\n'])) ++ y
        = ws2 ++ '/' :: '/' :: (mid ++ '\n' :: y) by simp]
    rw [matchLineComment_refit hws hmid y, ← hu]
  | none =>
    rw [hlc] at h
    obtain ⟨inner, tail, hs, hfc, hu, hr⟩ := matchBlockComment_some h
    have hy2 : ∀ c, y.head? = some c → pyIsSpace c = false := by
      intro c hc
      rcases hyr c hc with h2 | h2
      · exact h2
      · rw [hr] at h2
        cases hdw : tail.dropWhile pyIsSpace with
        | nil =>
          rw [hdw] at h2
          simp at h2
        | cons c2 t2 =>
          rw [hdw] at h2
          have hnws := dropWhile_cons_not hdw
          have hcc : c2 = c := by simpa using h2
          rw [← hcc]
          exact hnws
    obtain ⟨hbc, hlc2⟩ := matchBlockComment_refit hfc y hy2
    rw [hu, hlc2, hbc, ← hu]

theorem matchUnit_hash {x : List Char} (hx : x.head? = some '#') :
    matchUnit x = none := by
  cases x with
  | nil => simp at hx
  | cons c t =>
    have hc : c = '#' := by simpa using hx
    subst hc
    unfold matchUnit matchLineComment matchBlockComment
    rw [List.dropWhile_cons_of_neg (by decide)]
    rw [show (strl "//").isPrefixOf ('#' :: t) = false by
      rw [show strl "//" = ['/', '/'] from rfl]
      simp [List.isPrefixOf]]
    rw [show (strl "/*").isPrefixOf ('#' :: t) = false by
      rw [show strl "/*" = ['/', '*'] from rfl]
      simp [List.isPrefixOf]]
    simp

theorem matchUnit_nil : matchUnit [] = none := by
  unfold matchUnit matchLineComment matchBlockComment
  rw [show (strl "//").isPrefixOf (List.dropWhile pyIsSpace []) = false
    from rfl]
  rw [show (strl "/*").isPrefixOf ([] : List Char) = false from rfl]
  simp

theorem leadAux_fuel : ∀ (n : Nat), ∀ (m : Nat) (s : List Char),
    s.length ≤ n → s.length ≤ m → leadAux n s = leadAux m s := by
  intro n
  induction n using Nat.strong_induction_on with
  | _ n ih =>
    intro m s hn hm
    cases n with
    | zero =>
      have hs : s = [] := List.length_eq_zero.mp (by omega)
      subst hs
      cases m with
      | zero => rfl
      | succ m2 => simp [leadAux, matchUnit_nil]
    | succ n2 =>
      cases m with
      | zero =>
        have hs : s = [] := List.length_eq_zero.mp (by omega)
        subst hs
        simp [leadAux, matchUnit_nil]
      | succ m2 =>
        unfold leadAux
        cases hmu : matchUnit s with
        | none => rfl
        | some p =>
          obtain ⟨u, r⟩ := p
          obtain ⟨hs, hne⟩ := matchUnit_decomp hmu
          have hrlen : r.length < s.length := by
            rw [hs, List.length_append]
            cases u with
            | nil => exact absurd rfl hne
            | cons a b => simp
          simp only
          rw [ih n2 (by omega) m2 r (by omega) (by omega)]

theorem leadComments_unfold (s : List Char) :
    leadComments s
      = match matchUnit s with
        | none => []
        | some (u, r) => u ++ leadComments r := by
  cases s with
  | nil =>
    rw [show leadComments [] = [] from rfl, matchUnit_nil]
  | cons c t =>
    have hstep : leadComments (c :: t)
        = match matchUnit (c :: t) with
          | none => []
          | some (u, r) => u ++ leadAux t.length r := rfl
    rw [hstep]
    cases hmu : matchUnit (c :: t) with
    | none => rfl
    | some p =>
      obtain ⟨u, r⟩ := p
      simp only
      obtain ⟨hs, hne⟩ := matchUnit_decomp hmu
      have hrlen : r.length ≤ t.length := by
        have h2 : (c :: t).length = u.length + r.length := by
          rw [hs, List.length_append]
        cases u with
        | nil => exact absurd rfl hne
        | cons a b => simp at h2; omega
      rw [leadAux_fuel t.length r.length r hrlen (le_refl _)]
      rfl

theorem leadComments_head {s : List Char} (h : leadComments s ≠ []) :
    (leadComments s).head? = s.head? := by
  rw [leadComments_unfold s] at h ⊢
  cases hmu : matchUnit s with
  | none =>
    rw [hmu] at h
    simp at h
  | some p =>
    obtain ⟨u, r⟩ := p
    obtain ⟨hs, hne⟩ := matchUnit_decomp hmu
    simp only
    rw [head?_append_of_ne_nil _ hne, hs, head?_append_of_ne_nil _ hne]

theorem leadComments_stable_aux : ∀ (n : Nat) (s x : List Char),
    s.length ≤ n → x.head? = some '#' →
    leadComments (leadComments s ++ x) = leadComments s := by
  intro n
  induction n using Nat.strong_induction_on with
  | _ n ih =>
    intro s x hlen hx
    rw [leadComments_unfold s]
    cases hmu : matchUnit s with
    | none =>
      simp only [List.nil_append]
      rw [leadComments_unfold x, matchUnit_hash hx]
    | some p =>
      obtain ⟨u, r⟩ := p
      simp only
      obtain ⟨hs, hne⟩ := matchUnit_decomp hmu
      have hrlen : r.length < s.length := by
        rw [hs, List.length_append]
        cases u with
        | nil => exact absurd rfl hne
        | cons a b => simp
      have hrec : leadComments (leadComments r ++ x) = leadComments r :=
        ih r.length (by omega) r x (le_refl _) hx
      have hy : ∀ c, (leadComments r ++ x).head? = some c
          → pyIsSpace c = false ∨ r.head? = some c := by
        intro c hc
        by_cases hcp : leadComments r = []
        · rw [hcp, List.nil_append, hx] at hc
          cases hc
          exact Or.inl (by decide)
        · rw [head?_append_of_ne_nil _ hcp, leadComments_head hcp] at hc
          exact Or.inr hc
      have hmu2 := matchUnit_refit hmu (leadComments r ++ x) hy
      rw [List.append_assoc]
      rw [leadComments_unfold (u ++ (leadComments r ++ x)), hmu2]
      simp only
      rw [hrec]

/-- Re-running the leading-comment match on its own output followed by a
`#…` remainder consumes exactly the same prefix. -/
theorem leadComments_stable (s x : List Char) (hx : x.head? = some '#') :
    leadComments (leadComments s ++ x) = leadComments s :=
  leadComments_stable_aux s.length s x (le_refl _) hx

/-! ## C1, part 2: `splitlines` structure -/

theorem splitlines_crlf (r : List Char) :
    splitlines ('\r' :: '\n' :: r) = ['\r', '\n'] :: splitlines r := rfl

theorem splitlines_break {c : Char} (rest : List Char)
    (hc : isLineBreak c = true)
    (hnot : c = '\r' → rest.head? ≠ some '\n') :
    splitlines (c :: rest) = [c] :: splitlines rest := by
  by_cases hcr : c = '\r'
  · subst hcr
    cases rest with
    | nil => rfl
    | cons c2 r2 =>
      have hc2 : c2 ≠ '\n' := by
        intro hh
        exact hnot rfl (by rw [hh]; rfl)
      conv_lhs => unfold splitlines
      rw [if_pos hc]
      split
      · rename_i rest2 heq
        injection heq with h3 h4
        exact absurd h3 hc2
      · rfl
  · cases rest with
    | nil =>
      conv_lhs => unfold splitlines
      rw [if_pos hc]
      split
      · rename_i rest2 heq
        simp at heq
      · rfl
    | cons c2 r2 =>
      conv_lhs => unfold splitlines
      rw [if_pos hc]
      split
      · exact absurd rfl hcr
      · rfl

theorem splitlines_nobreak {c : Char} (rest : List Char)
    (hc : isLineBreak c = false) :
    splitlines (c :: rest)
      = match splitlines rest with
        | [] => [[c]]
        | l :: ls => (c :: l) :: ls := by
  conv_lhs => unfold splitlines
  rw [if_neg (by simp [hc])]

theorem splitlines_ne_nil {s : List Char} (h : s ≠ []) :
    splitlines s ≠ [] := by
  cases s with
  | nil => exact absurd rfl h
  | cons c rest =>
    by_cases hc : isLineBreak c
    · by_cases hcr : c = '\r' ∧ rest.head? = some '\n'
      · obtain ⟨h1, h2⟩ := hcr
        subst h1
        cases rest with
        | nil => simp at h2
        | cons c2 r2 =>
          have : c2 = '\n' := by simpa using h2
          subst this
          rw [splitlines_crlf]
          simp
      · have hnot : c = '\r' → rest.head? ≠ some '\n' := by
          intro h1 h2
          exact hcr ⟨h1, h2⟩
        rw [splitlines_break rest hc hnot]
        simp
    · rw [splitlines_nobreak rest (Bool.eq_false_iff.mpr hc)]
      cases splitlines rest with
      | nil => simp
      | cons l ls => simp

/-- A single line made of non-break characters followed by `\n` splits
off whole. -/
theorem splitlines_word_line : ∀ (w : List Char) (b : List Char),
    (∀ c ∈ w, isLineBreak c = false) →
    splitlines (w ++ '\n' :: b) = (w ++ ['\n']) :: splitlines b := by
  intro w
  induction w with
  | nil =>
    intro b _
    rw [List.nil_append]
    exact splitlines_break b (by decide) (by intro h; cases h)
  | cons c w2 ih =>
    intro b hw
    rw [List.cons_append,
      splitlines_nobreak (w2 ++ '\n' :: b) (hw c (by simp)),
      ih b (fun c2 hc2 => hw c2 (List.mem_cons_of_mem c hc2))]
    rfl

theorem joinl_splitlines_aux : ∀ (n : Nat) (s : List Char),
    s.length ≤ n → joinl (splitlines s) = s := by
  intro n
  induction n using Nat.strong_induction_on with
  | _ n ih =>
    intro s hlen
    cases s with
    | nil => rfl
    | cons c rest =>
      have hlen2 : rest.length < n := by
        simp at hlen
        omega
      by_cases hc : isLineBreak c
      · by_cases hcr : c = '\r' ∧ rest.head? = some '\n'
        · obtain ⟨h1, h2⟩ := hcr
          subst h1
          cases rest with
          | nil => simp at h2
          | cons c2 r2 =>
            have hc2 : c2 = '\n' := by simpa using h2
            subst hc2
            rw [splitlines_crlf, joinl_cons,
              ih r2.length (by simp at hlen2; omega) r2 (le_refl _)]
            rfl
        · have hnot : c = '\r' → rest.head? ≠ some '\n' := by
            intro h1 h2
            exact hcr ⟨h1, h2⟩
          rw [splitlines_break rest hc hnot, joinl_cons,
            ih rest.length hlen2 rest (le_refl _)]
          rfl
      · rw [splitlines_nobreak rest (Bool.eq_false_iff.mpr hc)]
        have hjs := ih rest.length hlen2 rest (le_refl _)
        cases hsp : splitlines rest with
        | nil =>
          rw [hsp] at hjs
          rw [show joinl [[c]] = [c] by simp [joinl]]
          rw [← hjs]
          rfl
        | cons l ls =>
          rw [hsp] at hjs
          rw [joinl_cons] at hjs ⊢
          rw [List.cons_append, hjs]

theorem joinl_splitlines (s : List Char) : joinl (splitlines s) = s :=
  joinl_splitlines_aux s.length s (le_refl _)

theorem splitlines_append_nl_aux : ∀ (n : Nat) (a b : List Char),
    a.length ≤ n → a.getLast? = some '\n' →
    splitlines (a ++ b) = splitlines a ++ splitlines b := by
  intro n
  induction n using Nat.strong_induction_on with
  | _ n ih =>
    intro a b hlen hlast
    cases a with
    | nil => simp at hlast
    | cons c a2 =>
      have hlen2 : a2.length < n := by
        simp at hlen
        omega
      cases a2 with
      | nil =>
        have hcn : c = '\n' := by simpa using hlast
        subst hcn
        show splitlines ('\n' :: b) = splitlines ['\n'] ++ splitlines b
        rw [splitlines_break b (by decide) (fun h => absurd h (by decide))]
        rfl
      | cons c2 a3 =>
        have hlast2 : (c2 :: a3).getLast? = some '\n' := by
          rw [← hlast]
          rfl
        by_cases hc : isLineBreak c
        · by_cases hcr : c = '\r' ∧ c2 = '\n'
          · obtain ⟨h1, h2⟩ := hcr
            subst h1
            subst h2
            rw [List.cons_append, List.cons_append, splitlines_crlf,
              splitlines_crlf]
            cases a3 with
            | nil =>
              rw [show splitlines ([] ++ b) = splitlines b by rfl]
              rfl
            | cons c3 a4 =>
              have hlast3 : (c3 :: a4).getLast? = some '\n' := by
                rw [← hlast2]
                rfl
              rw [ih (c3 :: a4).length (by simp at hlen2 ⊢; omega)
                (c3 :: a4) b (le_refl _) hlast3]
              rfl
          · have hnot : c = '\r' → (c2 :: a3).head? ≠ some '\n' := by
              intro h1 h2
              exact hcr ⟨h1, by simpa using h2⟩
            have hnot2 : c = '\r' → ((c2 :: a3) ++ b).head? ≠ some '\n' := by
              intro h1 h2
              exact hcr ⟨h1, by simpa using h2⟩
            rw [List.cons_append,
              splitlines_break ((c2 :: a3) ++ b) hc hnot2,
              splitlines_break (c2 :: a3) hc hnot,
              ih (c2 :: a3).length hlen2 (c2 :: a3) b (le_refl _) hlast2]
            rfl
        · have hcf : isLineBreak c = false := Bool.eq_false_iff.mpr hc
          rw [List.cons_append, splitlines_nobreak ((c2 :: a3) ++ b) hcf,
            splitlines_nobreak (c2 :: a3) hcf,
            ih (c2 :: a3).length hlen2 (c2 :: a3) b (le_refl _) hlast2]
          cases hsp : splitlines (c2 :: a3) with
          | nil => exact absurd hsp (splitlines_ne_nil (by simp))
          | cons l ls => rfl

theorem splitlines_append_nl {a : List Char} (b : List Char)
    (hlast : a.getLast? = some '\n') :
    splitlines (a ++ b) = splitlines a ++ splitlines b :=
  splitlines_append_nl_aux a.length a b (le_refl _) hlast

theorem splitlines_join_drop_aux : ∀ (n : Nat) (s : List Char) (k : Nat),
    s.length ≤ n →
    splitlines (joinl ((splitlines s).drop k)) = (splitlines s).drop k := by
  intro n
  induction n using Nat.strong_induction_on with
  | _ n ih =>
    intro s k hlen
    cases k with
    | zero => rw [List.drop_zero, joinl_splitlines]
    | succ k2 =>
      cases s with
      | nil =>
        rw [show splitlines ([] : List Char) = [] from rfl, List.drop_nil]
        rfl
      | cons c rest =>
        have hlen2 : rest.length < n := by
          simp at hlen
          omega
        by_cases hc : isLineBreak c
        · by_cases hcr : c = '\r' ∧ rest.head? = some '\n'
          · obtain ⟨h1, h2⟩ := hcr
            subst h1
            cases rest with
            | nil => simp at h2
            | cons c2 r2 =>
              have hc2 : c2 = '\n' := by simpa using h2
              subst hc2
              rw [splitlines_crlf, List.drop_succ_cons]
              exact ih r2.length (by simp at hlen2; omega) r2 k2 (le_refl _)
          · have hnot : c = '\r' → rest.head? ≠ some '\n' := by
              intro h1 h2
              exact hcr ⟨h1, h2⟩
            rw [splitlines_break rest hc hnot, List.drop_succ_cons]
            exact ih rest.length hlen2 rest k2 (le_refl _)
        · rw [splitlines_nobreak rest (Bool.eq_false_iff.mpr hc)]
          cases hsp : splitlines rest with
          | nil =>
            rw [List.drop_succ_cons, List.drop_nil]
            rfl
          | cons l ls =>
            rw [List.drop_succ_cons]
            have hrec := ih rest.length hlen2 rest (k2 + 1) (le_refl _)
            rw [hsp, List.drop_succ_cons] at hrec
            exact hrec

theorem splitlines_join_drop (s : List Char) (k : Nat) :
    splitlines (joinl ((splitlines s).drop k)) = (splitlines s).drop k :=
  splitlines_join_drop_aux s.length s k (le_refl _)

theorem no_break_of_no_ws {w : List Char} (h : ∀ c ∈ w, pyIsSpace c = false) :
    ∀ c ∈ w, isLineBreak c = false := by
  intro c hc
  by_cases hb : isLineBreak c
  · exact absurd (h c hc) (by simp [lineBreak_isSpace hb])
  · exact Bool.eq_false_iff.mpr hb

/-- `strip()` of a word line: a line whose first and last characters are
non-whitespace, followed by a newline, strips to the word itself. -/
theorem pyStrip_append_nl {w : List Char} {c0 : Char} {t0 : List Char}
    (hw : w = c0 :: t0) (h0 : pyIsSpace c0 = false)
    {cl : Char} (hl : w.getLast? = some cl) (hcl : pyIsSpace cl = false) :
    pyStrip (w ++ ['\n']) = w := by
  unfold pyStrip
  rw [hw, List.cons_append, List.dropWhile_cons_of_neg (by simp [h0]),
    show c0 :: (t0 ++ ['\n']) = w ++ ['\n'] by rw [hw]; rfl]
  unfold dropWhileEnd
  rw [show (w ++ ['\n']).reverse = '\n' :: w.reverse by simp,
    List.dropWhile_cons_of_pos (by decide)]
  have hrh : w.reverse.head? = some cl := by rw [List.head?_reverse, hl]
  cases hr : w.reverse with
  | nil => rw [hr] at hrh; simp at hrh
  | cons x xs =>
    have hx : x = cl := by rw [hr] at hrh; simpa using hrh
    subst hx
    rw [List.dropWhile_cons_of_neg (by simp [hcl]), ← hr, List.reverse_reverse]
    exact hw

theorem wordsAux_nonws {w : List Char} (hw : ∀ c ∈ w, pyIsSpace c = false) :
    ∀ (s acc : List Char), wordsAux (w ++ s) acc = wordsAux s (w.reverse ++ acc) := by
  induction w with
  | nil => intro s acc; rfl
  | cons c w2 ih =>
    intro s acc
    have hc : pyIsSpace c = false := hw c (by simp)
    rw [List.cons_append,
      show wordsAux (c :: (w2 ++ s)) acc = wordsAux (w2 ++ s) (c :: acc) by
        simp [wordsAux, hc],
      ih (fun d hd => hw d (by simp [hd])) s (c :: acc)]
    simp

/-- `str.split()` of a line `word SPACE word` with whitespace-free words. -/
theorem pySplit_two_words {u G : List Char}
    (hu : ∀ c ∈ u, pyIsSpace c = false) (hu0 : u ≠ [])
    (hG : ∀ c ∈ G, pyIsSpace c = false) (hG0 : G ≠ []) :
    pySplit (u ++ ' ' :: G) = [u, G] := by
  unfold pySplit
  rw [wordsAux_nonws hu (' ' :: G) []]
  have hur : u.reverse ++ [] = u.reverse := by simp
  rw [hur]
  have hurne : u.reverse.isEmpty = false := by
    cases hr : u.reverse with
    | nil => exact absurd (by simpa using congrArg List.reverse hr) hu0
    | cons x xs => rfl
  rw [show wordsAux (' ' :: G) u.reverse
      = u.reverse.reverse :: wordsAux G [] by
    simp [wordsAux, show pyIsSpace ' ' = true by decide, hurne]]
  rw [List.reverse_reverse]
  have hG2 : wordsAux G [] = [G] := by
    rw [show G = G ++ [] by simp, wordsAux_nonws hG [] []]
    have hGrne : G.reverse.isEmpty = false := by
      cases hr : G.reverse with
      | nil => exact absurd (by simpa using congrArg List.reverse hr) hG0
      | cons x xs => rfl
    simp [wordsAux, hGrne]
  rw [hG2]

/-- A pattern occurring as a suffix is found by the substring test. -/
theorem containsSub_append_self : ∀ (x pat : List Char),
    containsSub (x ++ pat) pat = true := by
  intro x pat
  induction x with
  | nil =>
    cases pat with
    | nil => rfl
    | cons p r =>
      rw [List.nil_append]
      unfold containsSub
      rw [List.isPrefixOf_iff_prefix.mpr (List.prefix_refl _)]
      rfl
  | cons c x2 ih =>
    rw [List.cons_append]
    unfold containsSub
    rw [ih, Bool.or_true]

/-- The `#ifndef` line emitted by `build_guard`. -/
def ifndefLine (G : List Char) : List Char := strl "#ifndef " ++ G ++ ['\n']

/-- The `#define` line emitted by `build_guard`. -/
def defineLine (G : List Char) : List Char := strl "#define " ++ G ++ ['\n']

/-- The closing `#endif` line emitted by `build_guard`. -/
def endifLine (G : List Char) (k : Nat) : List Char :=
  strl "#endif" ++ List.replicate k ' ' ++ strl "// " ++ G ++ ['\n']

theorem getLast_some_of_ne_nil {G : List Char} (h : G ≠ []) :
    ∃ cl, G.getLast? = some cl ∧ cl ∈ G :=
  ⟨G.getLast h, List.getLast?_eq_getLast G h, List.getLast_mem h⟩

theorem ifndefLine_strip {G : List Char} (hne : G ≠ [])
    (hws : ∀ c ∈ G, pyIsSpace c = false) :
    pyStrip (ifndefLine G) = strl "#ifndef " ++ G := by
  obtain ⟨cl, hcl, hclm⟩ := getLast_some_of_ne_nil hne
  exact pyStrip_append_nl rfl (by decide)
    (by rw [List.getLast?_append_of_ne_nil _ hne, hcl]) (hws cl hclm)

theorem defineLine_strip {G : List Char} (hne : G ≠ [])
    (hws : ∀ c ∈ G, pyIsSpace c = false) :
    pyStrip (defineLine G) = strl "#define " ++ G := by
  obtain ⟨cl, hcl, hclm⟩ := getLast_some_of_ne_nil hne
  exact pyStrip_append_nl rfl (by decide)
    (by rw [List.getLast?_append_of_ne_nil _ hne, hcl]) (hws cl hclm)

theorem endifLine_strip {G : List Char} (hne : G ≠ [])
    (hws : ∀ c ∈ G, pyIsSpace c = false) (k : Nat) :
    pyStrip (endifLine G k)
      = strl "#endif" ++ List.replicate k ' ' ++ strl "// " ++ G := by
  obtain ⟨cl, hcl, hclm⟩ := getLast_some_of_ne_nil hne
  exact pyStrip_append_nl rfl (by decide)
    (by rw [List.getLast?_append_of_ne_nil _ hne, hcl]) (hws cl hclm)

theorem ifndefLine_name {G : List Char} (hne : G ≠ [])
    (hws : ∀ c ∈ G, pyIsSpace c = false) :
    guard_name_from_ifndef (ifndefLine G) = some G := by
  unfold guard_name_from_ifndef
  rw [ifndefLine_strip hne hws,
    show strl "#ifndef " ++ G = strl "#ifndef" ++ ' ' :: G from rfl,
    pySplit_two_words (by decide) (by decide) hws hne]
  simp

theorem defineLine_name {G : List Char} (hne : G ≠ [])
    (hws : ∀ c ∈ G, pyIsSpace c = false) :
    guard_name_from_define (defineLine G) = some G := by
  unfold guard_name_from_define
  rw [defineLine_strip hne hws,
    show strl "#define " ++ G = strl "#define" ++ ' ' :: G from rfl,
    pySplit_two_words (by decide) (by decide) hws hne]
  simp

theorem endifLine_matches {G : List Char} (hne : G ≠ [])
    (hws : ∀ c ∈ G, pyIsSpace c = false) (k : Nat) :
    matches_endif (pyStrip (endifLine G k)) G = true := by
  rw [endifLine_strip hne hws k]
  unfold matches_endif
  have hpre : (strl "#endif").isPrefixOf
      (strl "#endif" ++ List.replicate k ' ' ++ strl "// " ++ G) = true :=
    List.isPrefixOf_iff_prefix.mpr
      ⟨List.replicate k ' ' ++ strl "// " ++ G, by simp [List.append_assoc]⟩
  have hsub : containsSub
      (strl "#endif" ++ List.replicate k ' ' ++ strl "// " ++ G) G = true :=
    containsSub_append_self (strl "#endif" ++ List.replicate k ' ' ++ strl "// ") G
  rw [hpre, hsub]
  simp

theorem endifLine_skip {G : List Char} (hne : G ≠ [])
    (hws : ∀ c ∈ G, pyIsSpace c = false) (k : Nat) :
    skipLine (endifLine G k) = false :=
  skipLine_false_of_matches (endifLine_matches hne hws k)

theorem ifndefLine_nonblank {G : List Char} (hne : G ≠ [])
    (hws : ∀ c ∈ G, pyIsSpace c = false) :
    (pyStrip (ifndefLine G)).isEmpty = false := by
  rw [ifndefLine_strip hne hws]
  rfl

theorem defineLine_nonblank {G : List Char} (hne : G ≠ [])
    (hws : ∀ c ∈ G, pyIsSpace c = false) :
    (pyStrip (defineLine G)).isEmpty = false := by
  rw [defineLine_strip hne hws]
  rfl

theorem ifndefLine_no_pragma {G : List Char} (hne : G ≠ [])
    (hws : ∀ c ∈ G, pyIsSpace c = false) :
    is_pragma_once (ifndefLine G) = false :=
  pragma_false_of_strip
    (show pyStrip (ifndefLine G) = '#' :: 'i' :: (strl "fndef " ++ G) by
      rw [ifndefLine_strip hne hws]; rfl)
    (by decide)

/-- `bgContent` written as its zeta-reduced conditional. -/
theorem bgContent_eq (b : List Char) :
    bgContent b
      = if (pyLstripNewlines b).isEmpty then pyLstripNewlines b
        else if (pyLstripNewlines b).getLast? = some '\n' then
          pyLstripNewlines b
        else pyLstripNewlines b ++ ['\n'] := rfl

theorem lstripNL_no_leading {s : List Char} {c : Char} {t : List Char}
    (h : pyLstripNewlines s = c :: t) (t2 : List Char) :
    pyLstripNewlines (c :: t2) = c :: t2 := by
  unfold pyLstripNewlines at h ⊢
  have hc := dropWhile_cons_not h
  rw [List.dropWhile_cons_of_neg (by simp [hc])]

theorem bgContent_lstrip (b : List Char) :
    pyLstripNewlines (bgContent b) = bgContent b := by
  rw [bgContent_eq]
  by_cases h1 : (pyLstripNewlines b).isEmpty
  · rw [if_pos h1, show pyLstripNewlines b = [] by simpa using h1]
    rfl
  · rw [if_neg h1]
    cases hc : pyLstripNewlines b with
    | nil => rw [hc] at h1; simp at h1
    | cons c t =>
      by_cases h2 : ((c :: t) : List Char).getLast? = some '\n'
      · rw [if_pos h2]
        exact lstripNL_no_leading hc t
      · rw [if_neg h2]
        exact lstripNL_no_leading hc (t ++ ['\n'])

theorem bgContent_last {b : List Char} (h : bgContent b ≠ []) :
    (bgContent b).getLast? = some '\n' := by
  rw [bgContent_eq] at h ⊢
  by_cases h1 : (pyLstripNewlines b).isEmpty
  · rw [if_pos h1] at h
    exact absurd (by simpa using h1) h
  · rw [if_neg h1] at h ⊢
    by_cases h2 : (pyLstripNewlines b).getLast? = some '\n'
    · rw [if_pos h2]
      exact h2
    · rw [if_neg h2]
      exact List.getLast?_concat _

theorem bgContent_nl (b : List Char) :
    bgContent ('\n' :: bgContent b) = bgContent b := by
  have h1 : pyLstripNewlines ('\n' :: bgContent b) = bgContent b := by
    unfold pyLstripNewlines
    rw [List.dropWhile_cons_of_pos (by decide)]
    exact bgContent_lstrip b
  rw [bgContent_eq, h1]
  by_cases he : (bgContent b).isEmpty
  · rw [if_pos he]
  · rw [if_neg he, if_pos (bgContent_last (by simpa using he))]

theorem build_guard_nl (G b : List Char) (k : Nat) :
    build_guard G ('\n' :: bgContent b) k = build_guard G b k := by
  unfold build_guard
  rw [bgContent_nl]

theorem ifndef_word_no_break {G : List Char}
    (hG : ∀ c ∈ G, isLineBreak c = false) :
    ∀ c ∈ strl "#ifndef " ++ G, isLineBreak c = false := by
  intro c hc
  rcases List.mem_append.mp hc with hc | hc
  · have hc2 : c ∈ ['#', 'i', 'f', 'n', 'd', 'e', 'f', ' '] := hc
    fin_cases hc2 <;> decide
  · exact hG c hc

theorem define_word_no_break {G : List Char}
    (hG : ∀ c ∈ G, isLineBreak c = false) :
    ∀ c ∈ strl "#define " ++ G, isLineBreak c = false := by
  intro c hc
  rcases List.mem_append.mp hc with hc | hc
  · have hc2 : c ∈ ['#', 'd', 'e', 'f', 'i', 'n', 'e', ' '] := hc
    fin_cases hc2 <;> decide
  · exact hG c hc

theorem endif_word_no_break {G : List Char} (k : Nat)
    (hG : ∀ c ∈ G, isLineBreak c = false) :
    ∀ c ∈ strl "#endif" ++ List.replicate k ' ' ++ strl "// " ++ G,
      isLineBreak c = false := by
  intro c hc
  rcases List.mem_append.mp hc with hc | hc
  · rcases List.mem_append.mp hc with hc | hc
    · rcases List.mem_append.mp hc with hc | hc
      · have hc2 : c ∈ ['#', 'e', 'n', 'd', 'i', 'f'] := hc
        fin_cases hc2 <;> decide
      · rw [(List.mem_replicate.mp hc).2]
        decide
    · have hc2 : c ∈ ['/', '/', ' '] := hc
      fin_cases hc2 <;> decide
  · exact hG c hc

/-- Splitting the rebuilt output (after the preserved prefix) into lines:
the two guard-opening lines, the blank line, the lines of the normalised
body, the closing line, and the lines of the trailing suffix. -/
theorem splitlines_build_guard (G b S : List Char) (k : Nat)
    (hws : ∀ c ∈ G, pyIsSpace c = false) :
    splitlines (build_guard G b k ++ S)
      = ifndefLine G :: defineLine G :: ['\n']
        :: (splitlines (bgContent b) ++ endifLine G k :: splitlines S) := by
  have hGnb : ∀ c ∈ G, isLineBreak c = false := no_break_of_no_ws hws
  have harg : build_guard G b k ++ S
      = (strl "#ifndef " ++ G) ++ '\n'
        :: ((strl "#define " ++ G) ++ '\n'
          :: ('\n' :: (bgContent b
            ++ ((strl "#endif" ++ List.replicate k ' ' ++ strl "// " ++ G)
              ++ '\n' :: S)))) := by
    simp only [build_guard, show strl "\n\n" = '\n' :: ['\n'] from rfl,
      List.append_assoc, List.cons_append, List.singleton_append,
      List.nil_append]
  rw [harg, splitlines_word_line _ _ (ifndef_word_no_break hGnb),
    splitlines_word_line _ _ (define_word_no_break hGnb),
    splitlines_break _ (by decide) (fun h => absurd h (by decide))]
  have hbg : splitlines (bgContent b
        ++ ((strl "#endif" ++ List.replicate k ' ' ++ strl "// " ++ G)
          ++ '\n' :: S))
      = splitlines (bgContent b) ++ endifLine G k :: splitlines S := by
    by_cases hb : bgContent b = []
    · rw [hb, List.nil_append,
        splitlines_word_line _ _ (endif_word_no_break k hGnb)]
      rfl
    · rw [splitlines_append_nl _ (bgContent_last hb),
        splitlines_word_line _ _ (endif_word_no_break k hGnb)]
      rfl
  rw [hbg]
  rfl

/-- The trailing suffix kept by `_remove_guard_structure` is a final
segment of the input lines, every line of which the backwards scan of
`guard_end_index` would skip. -/
theorem rgs_suffix (ls : List (List Char)) :
    ∃ k, (removeGuardStructure ls).2.1 = ls.drop k
      ∧ ((removeGuardStructure ls).2.1).all skipLine = true := by
  unfold removeGuardStructure
  cases hnc : next_code_index ls 0 with
  | none => exact ⟨ls.length, by simp, by simp⟩
  | some start =>
    simp only
    by_cases hp : is_pragma_once (ls.getD start [])
    · rw [if_pos hp]
      exact ⟨ls.length, by simp, by simp⟩
    · rw [if_neg hp]
      unfold stripMacroGuardTriple
      cases hgn : guard_name_from_ifndef (ls.getD start []) with
      | none => exact ⟨ls.length, by simp, by simp⟩
      | some name =>
        simp only
        cases hmd : mgDefineIndex ls start name with
        | none => exact ⟨ls.length, by simp, by simp⟩
        | some d =>
          simp only
          cases hge : guard_end_index ls name with
          | none => exact ⟨ls.length, by simp, by simp⟩
          | some e =>
            refine ⟨e + 1, rfl, ?_⟩
            exact ((guard_end_index_iff ls name e).mp hge).2.2.2

theorem scanCode_cons_nonblank {l : List Char} (h : (pyStrip l).isEmpty = false)
    (rest : List (List Char)) : scanCode (l :: rest) = some 0 := by
  unfold scanCode
  rw [h]
  rfl

theorem next_code_index_cons_nonblank {l : List Char}
    (h : (pyStrip l).isEmpty = false) (rest : List (List Char)) :
    next_code_index (l :: rest) 0 = some 0 := by
  unfold next_code_index
  rw [List.drop_zero, scanCode_cons_nonblank h rest]
  rfl

theorem next_code_index_one {l0 l1 : List Char}
    (h : (pyStrip l1).isEmpty = false) (rest : List (List Char)) :
    next_code_index (l0 :: l1 :: rest) 1 = some 1 := by
  unfold next_code_index
  rw [show (l0 :: l1 :: rest).drop 1 = l1 :: rest from rfl,
    scanCode_cons_nonblank h rest]
  rfl

theorem getD_append_length {α : Type} (a : List α) (x : α) (c : List α)
    (d : α) : (a ++ x :: c).getD a.length d = x := by
  rw [List.getD_eq_getElem?_getD, List.getElem?_append_right (le_refl _)]
  simp

theorem drop_append_cons {α : Type} (a : List α) (x : α) (c : List α) :
    (a ++ x :: c).drop (a.length + 1) = c := by
  rw [List.drop_append 1]
  rfl

theorem take_slice_mid {A : Type} (a0 a1 a2 : A) (c : List A) (x : A)
    (s : List A) (m : Nat) (hm : m = c.length + 1) :
    ((a0 :: a1 :: a2 :: (c ++ x :: s)).drop 2).take m = a2 :: c := by
  rw [show (a0 :: a1 :: a2 :: (c ++ x :: s)).drop 2
      = (a2 :: c) ++ (x :: s) from rfl,
    List.take_left' (by simp [hm])]

theorem drop_slice_end {A : Type} (a0 a1 a2 : A) (c : List A) (x : A)
    (s : List A) (m : Nat) (hm : m = c.length + 4) :
    (a0 :: a1 :: a2 :: (c ++ x :: s)).drop m = s := by
  rw [show a0 :: a1 :: a2 :: (c ++ x :: s)
      = (a0 :: a1 :: a2 :: (c ++ [x])) ++ s from by simp,
    List.drop_left' (by simp [hm])]

/-- Guard detection on the rebuilt output: on the line list produced by a
previous rewrite (guard lines, blank line, body lines, closing line, and
an all-skippable trailing suffix) `_remove_guard_structure` finds the
guard at lines 0/1 and the closing line, and returns exactly the blank
line plus the body lines as the new body and the trailing lines as the
new suffix. -/
theorem rgs_rebuilt (G b : List Char) (k : Nat) (sfx : List (List Char))
    (hne : G ≠ []) (hws : ∀ c ∈ G, pyIsSpace c = false)
    (hall : sfx.all skipLine = true) :
    removeGuardStructure
        (ifndefLine G :: defineLine G :: ['\n']
          :: (splitlines (bgContent b) ++ endifLine G k :: sfx))
      = (['\n'] :: splitlines (bgContent b), sfx, true) := by
  have hnc : next_code_index
      (ifndefLine G :: defineLine G :: ['\n']
        :: (splitlines (bgContent b) ++ endifLine G k :: sfx)) 0 = some 0 :=
    next_code_index_cons_nonblank (ifndefLine_nonblank hne hws) _
  have hmd : mgDefineIndex
      (ifndefLine G :: defineLine G :: ['\n']
        :: (splitlines (bgContent b) ++ endifLine G k :: sfx)) 0 G
      = some 1 := by
    unfold mgDefineIndex
    rw [show (0 : Nat) + 1 = 1 from rfl,
      next_code_index_one (defineLine_nonblank hne hws) _]
    simp only [List.getD_cons_succ, List.getD_cons_zero]
    rw [if_pos (defineLine_name hne hws)]
  have hge : guard_end_index
      (ifndefLine G :: defineLine G :: ['\n']
        :: (splitlines (bgContent b) ++ endifLine G k :: sfx)) G
      = some ((splitlines (bgContent b)).length + 3) := by
    apply (guard_end_index_iff _ G _).mpr
    have hgd : (ifndefLine G :: defineLine G :: ['\n']
          :: (splitlines (bgContent b) ++ endifLine G k :: sfx)).getD
        ((splitlines (bgContent b)).length + 3) [] = endifLine G k := by
      rw [show (splitlines (bgContent b)).length + 3
          = ((splitlines (bgContent b)).length + 2) + 1 from rfl,
        List.getD_cons_succ,
        show (splitlines (bgContent b)).length + 2
          = ((splitlines (bgContent b)).length + 1) + 1 from rfl,
        List.getD_cons_succ, List.getD_cons_succ]
      exact getD_append_length _ _ _ _
    refine ⟨?_, ?_, ?_, ?_⟩
    · simp only [List.length_cons, List.length_append]
      omega
    · rw [hgd]
      exact endifLine_skip hne hws k
    · rw [hgd]
      exact endifLine_matches hne hws k
    · rw [show (splitlines (bgContent b)).length + 3 + 1
          = ((splitlines (bgContent b)).length + 1) + 3 from by omega,
        show ((splitlines (bgContent b)).length + 1) + 3
          = (((splitlines (bgContent b)).length + 1) + 2) + 1 from rfl,
        List.drop_succ_cons,
        show ((splitlines (bgContent b)).length + 1) + 2
          = (((splitlines (bgContent b)).length + 1) + 1) + 1 from rfl,
        List.drop_succ_cons, List.drop_succ_cons, drop_append_cons]
      exact hall
  unfold removeGuardStructure
  rw [hnc]
  simp only [List.getD_cons_zero]
  rw [if_neg (by simp [ifndefLine_no_pragma hne hws])]
  unfold stripMacroGuardTriple
  simp only [List.getD_cons_zero]
  cases hgn : guard_name_from_ifndef (ifndefLine G) with
  | none => rw [ifndefLine_name hne hws] at hgn; cases hgn
  | some nm =>
    rw [ifndefLine_name hne hws] at hgn
    injection hgn with hnm
    subst hnm
    simp only
    cases hmd2 : mgDefineIndex
        (ifndefLine G :: defineLine G :: ['\n']
          :: (splitlines (bgContent b) ++ endifLine G k :: sfx)) 0 G with
    | none => rw [hmd] at hmd2; cases hmd2
    | some d =>
      rw [hmd] at hmd2
      injection hmd2 with hd
      subst hd
      simp only
      cases hge2 : guard_end_index
          (ifndefLine G :: defineLine G :: ['\n']
            :: (splitlines (bgContent b) ++ endifLine G k :: sfx)) G with
      | none => rw [hge] at hge2; cases hge2
      | some e =>
        rw [hge] at hge2
        injection hge2 with he2
        subst he2
        simp only
        rw [show (1 : Nat) + 1 = 2 from rfl]
        rw [take_slice_mid (ifndefLine G) (defineLine G) (['\n'] : List Char)
            (splitlines (bgContent b)) (endifLine G k) sfx
            ((splitlines (bgContent b)).length + 3 - 2) (by omega),
          drop_slice_end (ifndefLine G) (defineLine G) (['\n'] : List Char)
            (splitlines (bgContent b)) (endifLine G k) sfx
            ((splitlines (bgContent b)).length + 3 + 1) (by omega)]
        simp

/-- `ensure_guard` written as the concatenation it returns. -/
theorem ensure_guard_eq (text guard : List Char) (spaces : Nat) :
    ensure_guard text guard spaces
      = leadComments text
        ++ build_guard guard
            (joinl (removeGuardStructure
              (splitlines (text.drop (leadComments text).length))).1) spaces
        ++ joinl (removeGuardStructure
            (splitlines (text.drop (leadComments text).length))).2.1 := rfl

/-- Applying `ensure_guard` to its own output shape (the prefix of some
text, a built guard, and an all-skippable line suffix) returns the input
unchanged. -/
theorem ensure_guard_output (t G b : List Char) (k : Nat)
    (sfx : List (List Char)) (hne : G ≠ [])
    (hws : ∀ c ∈ G, pyIsSpace c = false)
    (hall : sfx.all skipLine = true)
    (hsp : splitlines (joinl sfx) = sfx) :
    ensure_guard (leadComments t ++ (build_guard G b k ++ joinl sfx)) G k
      = leadComments t ++ (build_guard G b k ++ joinl sfx) := by
  have hhead : (build_guard G b k ++ joinl sfx).head? = some '#' := rfl
  have hpre : leadComments (leadComments t ++ (build_guard G b k ++ joinl sfx))
      = leadComments t := leadComments_stable t _ hhead
  rw [ensure_guard_eq, hpre, List.drop_left,
    splitlines_build_guard G b (joinl sfx) k hws, hsp,
    rgs_rebuilt G b k sfx hne hws hall, joinl_cons, joinl_splitlines,
    show (['\n'] : List Char) ++ bgContent b = '\n' :: bgContent b from rfl,
    build_guard_nl, List.append_assoc]

/-- C1: the core rewrite `ensure_guard` is idempotent: for every input
text, every non-empty guard name without whitespace characters, and every
spacing value, applying the rewrite to its own output returns that output
unchanged — the canonical output is detected as a guard on the second
pass and rebuilt identically. -/
theorem ensure_guard_idem (t G : List Char) (k : Nat) (hne : G ≠ [])
    (hws : ∀ c ∈ G, pyIsSpace c = false) :
    ensure_guard (ensure_guard t G k) G k = ensure_guard t G k := by
  obtain ⟨k0, hk0, hall⟩ :=
    rgs_suffix (splitlines (t.drop (leadComments t).length))
  have hsp : splitlines (joinl
      (removeGuardStructure
        (splitlines (t.drop (leadComments t).length))).2.1)
      = (removeGuardStructure
          (splitlines (t.drop (leadComments t).length))).2.1 := by
    rw [hk0]
    exact splitlines_join_drop _ k0
  have he : ensure_guard t G k
      = leadComments t
        ++ (build_guard G
            (joinl (removeGuardStructure
              (splitlines (t.drop (leadComments t).length))).1) k
          ++ joinl (removeGuardStructure
              (splitlines (t.drop (leadComments t).length))).2.1) := by
    rw [ensure_guard_eq, List.append_assoc]
  rw [he]
  exact ensure_guard_output t G
    (joinl (removeGuardStructure
      (splitlines (t.drop (leadComments t).length))).1) k
    (removeGuardStructure
      (splitlines (t.drop (leadComments t).length))).2.1
    hne hws hall hsp

theorem ensure_guard_idem_concrete :
    ((strl "A_H_" ≠ []) ∧ (∀ c ∈ strl "A_H_", pyIsSpace c = false))
    ∧ ensure_guard (ensure_guard (strl "int x;\n") (strl "A_H_") 2)
        (strl "A_H_") 2
      = ensure_guard (strl "int x;\n") (strl "A_H_") 2 :=
  ⟨⟨by decide, by decide⟩,
    ensure_guard_idem (strl "int x;\n") (strl "A_H_") 2 (by decide) (by decide)⟩

/-- C1 counterexample: the idempotence claim is false for the program's
alternative implementation: `process_header_text` applied twice to this
input (whose body contains a nested `#ifndef`/`#define` pair) differs
from a single application — the second pass matches the guard start at
the rebuilt outer guard but pairs it with the nested `#define`, deleting
the intervening code line. -/
theorem process_header_text_not_idem :
    process_header_text
        (process_header_text
          (strl "#ifndef A_H_\nint x;\n#ifndef Q\n#define Q\nbody\n#endif\n")
          (strl "a.h"))
        (strl "a.h")
      ≠ process_header_text
          (strl "#ifndef A_H_\nint x;\n#ifndef Q\n#define Q\nbody\n#endif\n")
          (strl "a.h") := by
  decide
